import Mathlib

/-!
Verification development for the dependency-visualizer repository.

The Python sources `graph_builder.py` and `dependency_analyzer.py` are embedded
shallowly: dictionaries become insertion-ordered association lists, sets become
membership lists, the BFS/DFS loops become fuel-indexed structural recursions,
and the fallible dependency-lookup callback becomes `String → Option (List String)`
(`none` models a raised exception).
-/

/-! ## Basic string helpers (Python `in`, `startswith`, `<` on strings) -/

/-- Does the character list `s` start with the pattern `pat`? -/
def charsStartWith : List Char → List Char → Bool
  | _, [] => true
  | [], _ :: _ => false
  | c :: cs, d :: ds => c == d && charsStartWith cs ds

/-- Does the pattern `pat` occur as a contiguous run inside `s`?  (Python `pat in s`.) -/
def charsContain (pat : List Char) : List Char → Bool
  | [] => charsStartWith [] pat
  | c :: rest => charsStartWith (c :: rest) pat || charsContain pat rest

/-- Python `sub in s` on strings. -/
def strContains (s sub : String) : Bool := charsContain sub.data s.data

/-- Python `s.startswith(pat)`. -/
def strStarts (s pat : String) : Bool := charsStartWith s.data pat.data

/-- Lexicographic (code-point) comparison of character lists, Python string `<=`. -/
def charsLe : List Char → List Char → Bool
  | [], _ => true
  | _ :: _, [] => false
  | c :: cs, d :: ds => if c = d then charsLe cs ds else decide (c < d)

/-- Python string `<=` (lexicographic by code points). -/
def strLe (a b : String) : Bool := charsLe a.data b.data

/-! ## The dependency graph data model -/

/-- A Python `Dict[str, List[str]]` in insertion order. -/
abbrev Graph := List (String × List String)

/-- Python dict assignment `g[k] = v`: update in place if the key exists,
otherwise append at the end. -/
def dictInsert : Graph → String → List String → Graph
  | [], k, v => [(k, v)]
  | p :: rest, k, v => if p.1 = k then (k, v) :: rest else p :: dictInsert rest k v

/-- Python `graph.get(k, [])`. -/
def depsOf : Graph → String → List String
  | [], _ => []
  | p :: rest, k => if p.1 = k then p.2 else depsOf rest k

/-- The keys of the mapping, in insertion order. -/
def keysOf (g : Graph) : List String := g.map Prod.fst

/-- `k` is a key of the mapping. -/
def isKey (g : Graph) (k : String) : Prop := k ∈ keysOf g

instance (g : Graph) (k : String) : Decidable (isKey g k) := by
  unfold isKey; infer_instance

/-- All dependency occurrences of the graph, in iteration order. -/
def allDeps (g : Graph) : List String := (g.map Prod.snd).flatten

/-- The direct-dependency edge relation of a graph: `edgeOf g a b` holds when
`b` occurs in `a`'s stored dependency list. -/
def edgeOf (g : Graph) (a b : String) : Prop := b ∈ depsOf g a

/-- A graph is acyclic when its edge relation admits no nonempty closed walk. -/
def Acyclic (g : Graph) : Prop := ∀ x, ¬ Relation.TransGen (edgeOf g) x x

/-! ## `graph_builder.py`: `DependencyGraphBuilder` -/

/-- Builder configuration (`filter_substring`, `max_depth`), fixed at construction. -/
structure BuilderCfg where
  filter_substring : String
  max_depth : Nat

/-- `DependencyGraphBuilder.should_skip_package`. -/
def should_skip_package (cfg : BuilderCfg) (package_name : String) : Bool :=
  (decide (cfg.filter_substring ≠ "") && strContains package_name cfg.filter_substring)
    || strStarts package_name "so:"
    || strStarts package_name "/"
    || strContains package_name ".so."

/-- The only exception `bfs_build_graph` lets escape (the filtered-root
`GraphBuilderError` raised before the traversal starts). -/
inductive BuildError where
  | filteredRoot
deriving DecidableEq

/-- The `for dep in filtered_dependencies:` body of `bfs_build_graph`.
Returns `(raised, parent_map, queue)`: `raised = true` models the
`CircularDependencyError` raised when an unvisited dependency is already
claimed in `parent_map`; mutations made before the raise persist, and the
deps after the raise are not processed (the exception aborts the loop). -/
def processDeps (current : String) (vis : List String) (dnext : Nat) :
    List String → List (String × String) → List (String × Nat) →
    Bool × List (String × String) × List (String × Nat)
  | [], pm, q => (false, pm, q)
  | dep :: rest, pm, q =>
    if dep ∈ vis then processDeps current vis dnext rest pm q
    else if dep ∈ pm.map Prod.fst then (true, pm, q)
    else processDeps current vis dnext rest (pm ++ [(dep, current)]) (q ++ [(dep, dnext)])

/-- The `while queue:` loop of `bfs_build_graph`.  The queue holds
`(package, depth)` pairs; `lookup pkg = none` models a raised lookup
exception.  Both a failing lookup and an internally raised
`CircularDependencyError` are caught by the node-level `except Exception`
handler, which records the current package with an empty dependency list
and continues.  `none` is returned only on fuel exhaustion. -/
def bfsLoop (cfg : BuilderCfg) (lookup : String → Option (List String)) :
    Nat → List (String × Nat) → List String → Graph → List (String × String) →
    Option Graph
  | 0, _, _, _, _ => none
  | _ + 1, [], _, g, _ => some g
  | fuel + 1, (cur, d) :: rest, vis, g, pm =>
    if cur ∈ vis then bfsLoop cfg lookup fuel rest vis g pm
    else if d > cfg.max_depth then bfsLoop cfg lookup fuel rest vis g pm
    else
      let vis' := cur :: vis
      match lookup cur with
      | none => bfsLoop cfg lookup fuel rest vis' (dictInsert g cur []) pm
      | some deps =>
        let fdeps := deps.filter (fun dep => !(should_skip_package cfg dep))
        let g1 := dictInsert g cur fdeps
        match processDeps cur vis' (d + 1) fdeps pm rest with
        | (true, pm', q') => bfsLoop cfg lookup fuel q' vis' (dictInsert g1 cur []) pm'
        | (false, pm', q') => bfsLoop cfg lookup fuel q' vis' g1 pm'

/-- `DependencyGraphBuilder.bfs_build_graph`.  The explicit `fuel` bounds the
number of loop iterations (the Python loop always terminates because every
iteration either discards a queue entry or visits a fresh package, but no
uniform bound exists for an arbitrary lookup function); `none` means the
fuel ran out before the queue emptied. -/
def bfs_build_graph (cfg : BuilderCfg) (lookup : String → Option (List String))
    (start : String) (fuel : Nat) : Option (Except BuildError Graph) :=
  if should_skip_package cfg start then some (Except.error BuildError.filteredRoot)
  else (bfsLoop cfg lookup fuel [(start, 0)] [] [] []).map Except.ok

/-! ## Concrete inputs used by the claims -/

/-- The spec's fixture `A: B C`, `B: D`, `C: D`, `D:` as a finished graph. -/
def fixtureGraph : Graph := [("A", ["B", "C"]), ("B", ["D"]), ("C", ["D"]), ("D", [])]

/-- Lookup backed by the fixture (the test repository's `get(package, [])`). -/
def fixtureLookup : String → Option (List String) := fun n => some (depsOf fixtureGraph n)

/-- The two-node true cycle `A: B`, `B: A` as a lookup. -/
def cycLookup : String → Option (List String) := fun n =>
  if n = "A" then some ["B"] else if n = "B" then some ["A"] else some []

/-- Default builder configuration used in the repository demos. -/
def defaultCfg : BuilderCfg := ⟨"", 10⟩

/-! ## C1 and C3: behaviour of `bfs_build_graph` on cycles and diamonds -/

/-- C1 (code bug): on the true two-node cycle `A: B`, `B: A` the builder does
NOT raise `CircularDependencyError`; it returns the complete cyclic graph
normally.  The back-edge `B → A` targets an already-visited node, so the
parent-map check never fires, and even the internal raise (when it does fire)
is swallowed by the node-level `except Exception` handler. -/
theorem claim_C1_cycle_returns_graph :
    bfs_build_graph defaultCfg cycLookup "A" 10 =
      some (Except.ok [("A", ["B"]), ("B", ["A"])]) := by
  rfl

/-- C3: on the acyclic diamond `A: B C`, `B: D`, `C: D`, `D:` the builder
returns normally, but the second parent of the shared child `D` (package `C`)
is recorded with an empty dependency list: the internal
`CircularDependencyError` raised on finding `D` already in the parent map is
caught by the per-node handler, which overwrites `C`'s entry with `[]`.  The
first conjunct shows the raise actually fires while processing `C`. -/
theorem claim_C3_diamond_drops_second_parent_deps :
    (processDeps "C" ["C", "B", "A"] 2 ["D"] [("B", "A"), ("C", "A"), ("D", "B")]
        [("D", 2)]).1 = true ∧
    bfs_build_graph defaultCfg fixtureLookup "A" 10 =
      some (Except.ok [("A", ["B", "C"]), ("B", ["D"]), ("C", []), ("D", [])]) := by
  exact ⟨rfl, rfl⟩

/-! ## Association-list lemmas -/

theorem depsOf_dictInsert_self (g : Graph) (k : String) (v : List String) :
    depsOf (dictInsert g k v) k = v := by
  induction g with
  | nil => simp [dictInsert, depsOf]
  | cons p rest ih =>
    by_cases h : p.1 = k
    · simp [dictInsert, h, depsOf]
    · simp [dictInsert, h, depsOf, ih]

theorem depsOf_dictInsert_ne (g : Graph) (k : String) (v : List String) (n : String)
    (h : n ≠ k) : depsOf (dictInsert g k v) n = depsOf g n := by
  induction g with
  | nil =>
    simp only [dictInsert, depsOf]
    rw [if_neg (fun hh => h hh.symm)]
  | cons p rest ih =>
    by_cases hp : p.1 = k
    · simp only [dictInsert, if_pos hp, depsOf]
      rw [if_neg (fun hh => h hh.symm), if_neg (by rw [hp]; exact fun hh => h hh.symm)]
    · simp only [dictInsert, if_neg hp, depsOf]
      by_cases hn : p.1 = n
      · rw [if_pos hn, if_pos hn]
      · rw [if_neg hn, if_neg hn, ih]

theorem isKey_dictInsert (g : Graph) (k : String) (v : List String) (n : String) :
    isKey (dictInsert g k v) n ↔ n = k ∨ isKey g n := by
  induction g with
  | nil => simp [dictInsert, isKey, keysOf, eq_comm]
  | cons p rest ih =>
    by_cases hp : p.1 = k
    · simp only [dictInsert, if_pos hp, isKey, keysOf, List.map_cons, List.mem_cons]
      constructor
      · rintro (h | h)
        · exact Or.inl h
        · exact Or.inr (Or.inr h)
      · rintro (h | h | h)
        · exact Or.inl h
        · exact Or.inl (hp ▸ h)
        · exact Or.inr h
    · simp only [dictInsert, if_neg hp, isKey, keysOf, List.map_cons, List.mem_cons]
      rw [show (n ∈ List.map Prod.fst (dictInsert rest k v)) = isKey (dictInsert rest k v) n from rfl]
      rw [ih]
      tauto

theorem isKey_dictInsert_self (g : Graph) (k : String) (v : List String) :
    isKey (dictInsert g k v) k := (isKey_dictInsert g k v k).2 (Or.inl rfl)

/-! ## C8: filtered root fails immediately, and is the only fatal outcome -/

/-- C8: if the root matches the filtering rule, `bfs_build_graph` fails with the
filtered-root error for every lookup function and every fuel (no lookup is ever
consulted); if the root does not match, that error is never produced: whenever
the build returns, it returns a graph. -/
theorem claim_C8_filtered_root :
    (∀ cfg lookup start fuel, should_skip_package cfg start = true →
      bfs_build_graph cfg lookup start fuel = some (Except.error BuildError.filteredRoot)) ∧
    (∀ cfg lookup start fuel r, should_skip_package cfg start = false →
      bfs_build_graph cfg lookup start fuel = some r → ∃ g, r = Except.ok g) := by
  constructor
  · intro cfg lookup start fuel h
    simp [bfs_build_graph, h]
  · intro cfg lookup start fuel r h hr
    simp only [bfs_build_graph, h, Bool.false_eq_true, if_false, Option.map_eq_some'] at hr
    obtain ⟨g, _, rfl⟩ := hr
    exact ⟨g, rfl⟩

/-- Witness for C8 at concrete inputs: the root `"Hat"` matches the filter
`"H"` and is rejected outright; the root `"A"` does not match and the build
returns a graph. -/
theorem claim_C8_filtered_root_witness :
    bfs_build_graph ⟨"H", 10⟩ fixtureLookup "Hat" 5 =
      some (Except.error BuildError.filteredRoot) ∧
    ∃ g, (Except.ok [("Z", [])] : Except BuildError Graph) = Except.ok g := by
  constructor
  · exact claim_C8_filtered_root.1 ⟨"H", 10⟩ fixtureLookup "Hat" 5 (by decide)
  · exact claim_C8_filtered_root.2 defaultCfg (fun _ => some []) "Z" 5
      (Except.ok [("Z", [])]) (by decide) (by rfl)

/-! ## C9: a failing per-node lookup is recovered locally -/

theorem bfsLoop_preserves_visited_entries (cfg : BuilderCfg)
    (lookup : String → Option (List String)) :
    ∀ fuel q vis g pm gfin, bfsLoop cfg lookup fuel q vis g pm = some gfin →
      ∀ n, n ∈ vis → depsOf gfin n = depsOf g n ∧ (isKey g n → isKey gfin n) := by
  intro fuel
  induction fuel with
  | zero => intro q vis g pm gfin h; simp [bfsLoop] at h
  | succ fuel ih =>
    intro q vis g pm gfin h n hn
    match q with
    | [] =>
      simp only [bfsLoop, Option.some.injEq] at h
      subst h; exact ⟨rfl, id⟩
    | (cur, d) :: rest =>
      by_cases hv : cur ∈ vis
      · rw [show bfsLoop cfg lookup (fuel + 1) ((cur, d) :: rest) vis g pm
            = bfsLoop cfg lookup fuel rest vis g pm from by
          simp [bfsLoop, hv]] at h
        exact ih rest vis g pm gfin h n hn
      · have hne : n ≠ cur := fun hh => hv (hh ▸ hn)
        by_cases hd : d > cfg.max_depth
        · rw [show bfsLoop cfg lookup (fuel + 1) ((cur, d) :: rest) vis g pm
              = bfsLoop cfg lookup fuel rest vis g pm from by
            simp [bfsLoop, hv, hd]] at h
          exact ih rest vis g pm gfin h n hn
        · have hn' : n ∈ cur :: vis := List.mem_cons_of_mem _ hn
          match hl : lookup cur with
          | none =>
            rw [show bfsLoop cfg lookup (fuel + 1) ((cur, d) :: rest) vis g pm
                = bfsLoop cfg lookup fuel rest (cur :: vis) (dictInsert g cur []) pm from by
              simp [bfsLoop, hv, hd, hl]] at h
            obtain ⟨h1, h2⟩ := ih rest (cur :: vis) (dictInsert g cur []) pm gfin h n hn'
            refine ⟨?_, ?_⟩
            · rw [h1, depsOf_dictInsert_ne g cur [] n hne]
            · intro hk
              exact h2 ((isKey_dictInsert g cur [] n).2 (Or.inr hk))
          | some deps =>
            set fdeps := deps.filter (fun dep => !(should_skip_package cfg dep)) with hf
            set g1 := dictInsert g cur fdeps with hg1
            match hp : processDeps cur (cur :: vis) (d + 1) fdeps pm rest with
            | (true, pm', q') =>
              rw [show bfsLoop cfg lookup (fuel + 1) ((cur, d) :: rest) vis g pm
                  = bfsLoop cfg lookup fuel q' (cur :: vis) (dictInsert g1 cur []) pm' from by
                rw [show bfsLoop cfg lookup (fuel + 1) ((cur, d) :: rest) vis g pm
                    = match processDeps cur (cur :: vis) (d + 1) fdeps pm rest with
                      | (true, pm', q') =>
                          bfsLoop cfg lookup fuel q' (cur :: vis) (dictInsert g1 cur []) pm'
                      | (false, pm', q') => bfsLoop cfg lookup fuel q' (cur :: vis) g1 pm' from by
                  simp [bfsLoop, hv, hd, hl]]
                rw [hp]] at h
              obtain ⟨h1, h2⟩ := ih q' (cur :: vis) (dictInsert g1 cur []) pm' gfin h n hn'
              refine ⟨?_, ?_⟩
              · rw [h1, depsOf_dictInsert_ne g1 cur [] n hne, hg1,
                  depsOf_dictInsert_ne g cur fdeps n hne]
              · intro hk
                exact h2 ((isKey_dictInsert g1 cur [] n).2 (Or.inr
                  ((isKey_dictInsert g cur fdeps n).2 (Or.inr hk))))
            | (false, pm', q') =>
              rw [show bfsLoop cfg lookup (fuel + 1) ((cur, d) :: rest) vis g pm
                  = bfsLoop cfg lookup fuel q' (cur :: vis) g1 pm' from by
                rw [show bfsLoop cfg lookup (fuel + 1) ((cur, d) :: rest) vis g pm
                    = match processDeps cur (cur :: vis) (d + 1) fdeps pm rest with
                      | (true, pm', q') =>
                          bfsLoop cfg lookup fuel q' (cur :: vis) (dictInsert g1 cur []) pm'
                      | (false, pm', q') => bfsLoop cfg lookup fuel q' (cur :: vis) g1 pm' from by
                  simp [bfsLoop, hv, hd, hl]]
                rw [hp]] at h
              obtain ⟨h1, h2⟩ := ih q' (cur :: vis) g1 pm' gfin h n hn'
              refine ⟨?_, ?_⟩
              · rw [h1, hg1, depsOf_dictInsert_ne g cur fdeps n hne]
              · intro hk
                exact h2 ((isKey_dictInsert g cur fdeps n).2 (Or.inr hk))

/-- C9: when the lookup for a popped, unvisited, in-depth package `n` raises,
the loop records `n` in the graph with an empty dependency list and proceeds
with exactly the remaining queue (one bad node never aborts the build), and in
every graph the build goes on to return, `n` stays a key mapped to `[]`. -/
theorem claim_C9_lookup_failure_recovered :
    ∀ cfg lookup fuel n d rest vis g pm, n ∉ vis → ¬ d > cfg.max_depth →
      lookup n = none →
      bfsLoop cfg lookup (fuel + 1) ((n, d) :: rest) vis g pm
        = bfsLoop cfg lookup fuel rest (n :: vis) (dictInsert g n []) pm ∧
      (∀ gfin, bfsLoop cfg lookup fuel rest (n :: vis) (dictInsert g n []) pm = some gfin →
        isKey gfin n ∧ depsOf gfin n = []) := by
  intro cfg lookup fuel n d rest vis g pm hv hd hl
  constructor
  · simp [bfsLoop, hv, hd, hl]
  · intro gfin h
    obtain ⟨h1, h2⟩ := bfsLoop_preserves_visited_entries cfg lookup fuel rest (n :: vis)
      (dictInsert g n []) pm gfin h n (List.mem_cons_self n vis)
    refine ⟨h2 (isKey_dictInsert_self g n []), ?_⟩
    rw [h1, depsOf_dictInsert_self]

/-- Witness for C9: package `"X"` with a failing lookup is recorded with an
empty list, the build continues over the rest of the queue, and the returned
graph maps `"X"` to `[]`. -/
theorem claim_C9_lookup_failure_recovered_witness :
    bfsLoop defaultCfg (fun _ => none) 3 [("X", 0)] [] [] []
      = bfsLoop defaultCfg (fun _ => none) 2 [] ["X"] (dictInsert [] "X" []) [] ∧
    (isKey [("X", [])] "X" ∧ depsOf [("X", [])] "X" = []) := by
  have h := claim_C9_lookup_failure_recovered defaultCfg (fun _ => none) 2 "X" 0 [] [] [] []
    (by decide) (by decide) rfl
  exact ⟨h.1, h.2 [("X", [])] rfl⟩

/-! ## C6: a non-empty filter substring never appears in the returned graph -/

theorem mem_dictInsert (g : Graph) (k : String) (v : List String) :
    ∀ p ∈ dictInsert g k v, p = (k, v) ∨ p ∈ g := by
  induction g with
  | nil => intro p hp; simp [dictInsert] at hp; exact Or.inl hp
  | cons q rest ih =>
    intro p hp
    by_cases hq : q.1 = k
    · simp only [dictInsert, if_pos hq, List.mem_cons] at hp
      rcases hp with h | h
      · exact Or.inl h
      · exact Or.inr (List.mem_cons_of_mem _ h)
    · simp only [dictInsert, if_neg hq, List.mem_cons] at hp
      rcases hp with h | h
      · exact Or.inr (h ▸ List.mem_cons_self q rest)
      · rcases ih p h with h' | h'
        · exact Or.inl h'
        · exact Or.inr (List.mem_cons_of_mem _ h')

theorem mem_processDeps_queue (current : String) (vis : List String) (dnext : Nat) :
    ∀ deps pm q e, e ∈ (processDeps current vis dnext deps pm q).2.2 →
      e ∈ q ∨ (e.1 ∈ deps ∧ e.2 = dnext) := by
  intro deps
  induction deps with
  | nil => intro pm q e he; simp [processDeps] at he; exact Or.inl he
  | cons dep rest ih =>
    intro pm q e he
    by_cases hv : dep ∈ vis
    · simp only [processDeps, if_pos hv] at he
      rcases ih pm q e he with h | h
      · exact Or.inl h
      · exact Or.inr ⟨List.mem_cons_of_mem _ h.1, h.2⟩
    · by_cases hpm : dep ∈ pm.map Prod.fst
      · simp only [processDeps, if_neg hv, if_pos hpm] at he
        exact Or.inl he
      · simp only [processDeps, if_neg hv, if_neg hpm] at he
        rcases ih _ _ e he with h | h
        · rcases List.mem_append.1 h with h' | h'
          · exact Or.inl h'
          · simp at h'
            exact Or.inr ⟨h' ▸ List.mem_cons_self dep rest, by simp [h']⟩
        · exact Or.inr ⟨List.mem_cons_of_mem _ h.1, h.2⟩

theorem bfsLoop_skip_invariant (cfg : BuilderCfg) (lookup : String → Option (List String)) :
    ∀ fuel q vis g pm gfin, bfsLoop cfg lookup fuel q vis g pm = some gfin →
      (∀ e ∈ q, should_skip_package cfg e.1 = false) →
      (∀ p ∈ g, should_skip_package cfg p.1 = false ∧
        ∀ x ∈ p.2, should_skip_package cfg x = false) →
      ∀ p ∈ gfin, should_skip_package cfg p.1 = false ∧
        ∀ x ∈ p.2, should_skip_package cfg x = false := by
  intro fuel
  induction fuel with
  | zero => intro q vis g pm gfin h; simp [bfsLoop] at h
  | succ fuel ih =>
    intro q vis g pm gfin h hq hg
    match q with
    | [] =>
      simp only [bfsLoop, Option.some.injEq] at h
      subst h; exact hg
    | (cur, d) :: rest =>
      have hcur : should_skip_package cfg cur = false := hq (cur, d) (List.mem_cons_self _ _)
      have hrest : ∀ e ∈ rest, should_skip_package cfg e.1 = false :=
        fun e he => hq e (List.mem_cons_of_mem _ he)
      by_cases hv : cur ∈ vis
      · rw [show bfsLoop cfg lookup (fuel + 1) ((cur, d) :: rest) vis g pm
            = bfsLoop cfg lookup fuel rest vis g pm from by simp [bfsLoop, hv]] at h
        exact ih rest vis g pm gfin h hrest hg
      · by_cases hd : d > cfg.max_depth
        · rw [show bfsLoop cfg lookup (fuel + 1) ((cur, d) :: rest) vis g pm
              = bfsLoop cfg lookup fuel rest vis g pm from by simp [bfsLoop, hv, hd]] at h
          exact ih rest vis g pm gfin h hrest hg
        · match hl : lookup cur with
          | none =>
            rw [show bfsLoop cfg lookup (fuel + 1) ((cur, d) :: rest) vis g pm
                = bfsLoop cfg lookup fuel rest (cur :: vis) (dictInsert g cur []) pm from by
              simp [bfsLoop, hv, hd, hl]] at h
            refine ih rest (cur :: vis) (dictInsert g cur []) pm gfin h hrest ?_
            intro p hp
            rcases mem_dictInsert g cur [] p hp with h' | h'
            · subst h'; exact ⟨hcur, by simp⟩
            · exact hg p h'
          | some deps =>
            set fdeps := deps.filter (fun dep => !(should_skip_package cfg dep)) with hf
            have hfd : ∀ x ∈ fdeps, should_skip_package cfg x = false := by
              intro x hx
              rw [hf] at hx
              have := (List.mem_filter.1 hx).2
              simpa using this
            set g1 := dictInsert g cur fdeps with hg1
            have hg1prop : ∀ p ∈ g1, should_skip_package cfg p.1 = false ∧
                ∀ x ∈ p.2, should_skip_package cfg x = false := by
              intro p hp
              rcases mem_dictInsert g cur fdeps p hp with h' | h'
              · subst h'; exact ⟨hcur, hfd⟩
              · exact hg p h'
            match hp : processDeps cur (cur :: vis) (d + 1) fdeps pm rest with
            | (true, pm', q') =>
              rw [show bfsLoop cfg lookup (fuel + 1) ((cur, d) :: rest) vis g pm
                  = bfsLoop cfg lookup fuel q' (cur :: vis) (dictInsert g1 cur []) pm' from by
                rw [show bfsLoop cfg lookup (fuel + 1) ((cur, d) :: rest) vis g pm
                    = match processDeps cur (cur :: vis) (d + 1) fdeps pm rest with
                      | (true, pm', q') =>
                          bfsLoop cfg lookup fuel q' (cur :: vis) (dictInsert g1 cur []) pm'
                      | (false, pm', q') => bfsLoop cfg lookup fuel q' (cur :: vis) g1 pm' from by
                  simp [bfsLoop, hv, hd, hl]]
                rw [hp]] at h
              have hq' : ∀ e ∈ q', should_skip_package cfg e.1 = false := by
                intro e he
                have he' : e ∈ (processDeps cur (cur :: vis) (d + 1) fdeps pm rest).2.2 := by
                  rw [hp]; exact he
                rcases mem_processDeps_queue cur (cur :: vis) (d + 1) fdeps pm rest e he' with
                  h' | h'
                · exact hrest e h'
                · exact hfd e.1 h'.1
              refine ih q' (cur :: vis) (dictInsert g1 cur []) pm' gfin h hq' ?_
              intro p hpp
              rcases mem_dictInsert g1 cur [] p hpp with h' | h'
              · subst h'; exact ⟨hcur, by simp⟩
              · exact hg1prop p h'
            | (false, pm', q') =>
              rw [show bfsLoop cfg lookup (fuel + 1) ((cur, d) :: rest) vis g pm
                  = bfsLoop cfg lookup fuel q' (cur :: vis) g1 pm' from by
                rw [show bfsLoop cfg lookup (fuel + 1) ((cur, d) :: rest) vis g pm
                    = match processDeps cur (cur :: vis) (d + 1) fdeps pm rest with
                      | (true, pm', q') =>
                          bfsLoop cfg lookup fuel q' (cur :: vis) (dictInsert g1 cur []) pm'
                      | (false, pm', q') => bfsLoop cfg lookup fuel q' (cur :: vis) g1 pm' from by
                  simp [bfsLoop, hv, hd, hl]]
                rw [hp]] at h
              have hq' : ∀ e ∈ q', should_skip_package cfg e.1 = false := by
                intro e he
                have he' : e ∈ (processDeps cur (cur :: vis) (d + 1) fdeps pm rest).2.2 := by
                  rw [hp]; exact he
                rcases mem_processDeps_queue cur (cur :: vis) (d + 1) fdeps pm rest e he' with
                  h' | h'
                · exact hrest e h'
                · exact hfd e.1 h'.1
              exact ih q' (cur :: vis) g1 pm' gfin h hq' hg1prop

/-- C6: with a non-empty `filter_substring`, whenever `bfs_build_graph` returns
a graph, no package name containing that substring occurs in it, neither as a
key nor inside any dependency-value list. -/
theorem claim_C6_filter_excluded :
    ∀ cfg lookup start fuel g, cfg.filter_substring ≠ "" →
      bfs_build_graph cfg lookup start fuel = some (Except.ok g) →
      ∀ n, strContains n cfg.filter_substring = true →
        ¬ isKey g n ∧ ∀ p ∈ g, n ∉ p.2 := by
  intro cfg lookup start fuel g hfs hb n hn
  have hskip : should_skip_package cfg n = true := by
    unfold should_skip_package
    simp [hfs, hn]
  by_cases hroot : should_skip_package cfg start
  · simp [bfs_build_graph, hroot] at hb
  · simp only [bfs_build_graph, hroot, Bool.false_eq_true, if_false,
      Option.map_eq_some'] at hb
    obtain ⟨g0, hg0, heq⟩ := hb
    rw [Except.ok.inj heq] at hg0
    have hroot' : should_skip_package cfg start = false := by
      simpa using hroot
    have hall := bfsLoop_skip_invariant cfg lookup fuel [(start, 0)] [] [] [] g hg0
      (by intro e he; simp only [List.mem_singleton] at he; subst he; exact hroot')
      (by intro p hp; simp at hp)
    constructor
    · intro hk
      obtain ⟨p, hp, hpk⟩ := List.mem_map.1 hk
      have := (hall p hp).1
      rw [hpk, hskip] at this
      exact Bool.true_eq_false.mp this
    · intro p hp hmem
      have := (hall p hp).2 n hmem
      rw [hskip] at this
      exact Bool.true_eq_false.mp this

/-- Witness for C6: with filter `"H"`, the dependency `"Hat"` reported by the
lookup for `"A"` is excluded from the returned graph: it is not a key, and it
is absent from `"A"`'s recorded value list. -/
theorem claim_C6_filter_excluded_witness :
    ¬ isKey [("A", ["B"]), ("B", [])] "Hat" ∧ "Hat" ∉ (("A", ["B"]) : String × List String).2 := by
  have h := claim_C6_filter_excluded ⟨"H", 10⟩
    (fun x => some (if x = "A" then ["B", "Hat"] else [])) "A" 4
    [("A", ["B"]), ("B", [])] (by decide) (by rfl) "Hat" (by decide)
  exact ⟨h.1, h.2 ("A", ["B"]) (by simp)⟩

/-! ## C7: with no depth discard, the returned graph is closed -/

/-- Step equations for `bfsLoop`, to avoid re-unfolding the match tree. -/
theorem bfsLoop_step_visited (cfg : BuilderCfg) (lookup : String → Option (List String))
    (fuel : Nat) (cur : String) (d : Nat) (rest : List (String × Nat)) (vis : List String)
    (g : Graph) (pm : List (String × String)) (h : cur ∈ vis) :
    bfsLoop cfg lookup (fuel + 1) ((cur, d) :: rest) vis g pm
      = bfsLoop cfg lookup fuel rest vis g pm := by
  simp [bfsLoop, h]

theorem bfsLoop_step_depth (cfg : BuilderCfg) (lookup : String → Option (List String))
    (fuel : Nat) (cur : String) (d : Nat) (rest : List (String × Nat)) (vis : List String)
    (g : Graph) (pm : List (String × String)) (h1 : cur ∉ vis) (h2 : d > cfg.max_depth) :
    bfsLoop cfg lookup (fuel + 1) ((cur, d) :: rest) vis g pm
      = bfsLoop cfg lookup fuel rest vis g pm := by
  simp [bfsLoop, h1, h2]

theorem bfsLoop_step_fail (cfg : BuilderCfg) (lookup : String → Option (List String))
    (fuel : Nat) (cur : String) (d : Nat) (rest : List (String × Nat)) (vis : List String)
    (g : Graph) (pm : List (String × String)) (h1 : cur ∉ vis) (h2 : ¬ d > cfg.max_depth)
    (h3 : lookup cur = none) :
    bfsLoop cfg lookup (fuel + 1) ((cur, d) :: rest) vis g pm
      = bfsLoop cfg lookup fuel rest (cur :: vis) (dictInsert g cur []) pm := by
  simp [bfsLoop, h1, h2, h3]

theorem bfsLoop_step_ok (cfg : BuilderCfg) (lookup : String → Option (List String))
    (fuel : Nat) (cur : String) (d : Nat) (rest : List (String × Nat)) (vis : List String)
    (g : Graph) (pm : List (String × String)) (deps : List String) (h1 : cur ∉ vis)
    (h2 : ¬ d > cfg.max_depth) (h3 : lookup cur = some deps) :
    bfsLoop cfg lookup (fuel + 1) ((cur, d) :: rest) vis g pm
      = (match processDeps cur (cur :: vis) (d + 1)
            (deps.filter (fun dep => !(should_skip_package cfg dep))) pm rest with
        | (true, pm', q') => bfsLoop cfg lookup fuel q' (cur :: vis)
            (dictInsert (dictInsert g cur
              (deps.filter (fun dep => !(should_skip_package cfg dep)))) cur []) pm'
        | (false, pm', q') => bfsLoop cfg lookup fuel q' (cur :: vis)
            (dictInsert g cur (deps.filter (fun dep => !(should_skip_package cfg dep)))) pm') := by
  simp [bfsLoop, h1, h2, h3]

/-- Mirror of `bfsLoop` that reports whether the `depth > max_depth` discard
branch was ever taken during the run (`false` exactly when some queue entry was
dropped for exceeding the depth bound). -/
def bfsNoDepthCut (cfg : BuilderCfg) (lookup : String → Option (List String)) :
    Nat → List (String × Nat) → List String → Graph → List (String × String) → Bool
  | 0, _, _, _, _ => true
  | _ + 1, [], _, _, _ => true
  | fuel + 1, (cur, d) :: rest, vis, g, pm =>
    if cur ∈ vis then bfsNoDepthCut cfg lookup fuel rest vis g pm
    else if d > cfg.max_depth then false
    else
      let vis' := cur :: vis
      match lookup cur with
      | none => bfsNoDepthCut cfg lookup fuel rest vis' (dictInsert g cur []) pm
      | some deps =>
        let fdeps := deps.filter (fun dep => !(should_skip_package cfg dep))
        let g1 := dictInsert g cur fdeps
        match processDeps cur vis' (d + 1) fdeps pm rest with
        | (true, pm', q') => bfsNoDepthCut cfg lookup fuel q' vis' (dictInsert g1 cur []) pm'
        | (false, pm', q') => bfsNoDepthCut cfg lookup fuel q' vis' g1 pm'

theorem processDeps_queue_mono (current : String) (vis : List String) (dnext : Nat) :
    ∀ deps pm q e, e ∈ q → e ∈ (processDeps current vis dnext deps pm q).2.2 := by
  intro deps
  induction deps with
  | nil => intro pm q e he; simpa [processDeps] using he
  | cons dep rest ih =>
    intro pm q e he
    by_cases hv : dep ∈ vis
    · simp only [processDeps, if_pos hv]
      exact ih pm q e he
    · by_cases hpm : dep ∈ pm.map Prod.fst
      · simpa [processDeps, hv, hpm] using he
      · simp only [processDeps, if_neg hv, if_neg hpm]
        exact ih _ _ e (List.mem_append_left _ he)

theorem processDeps_no_raise_covers (current : String) (vis : List String) (dnext : Nat) :
    ∀ deps pm q, (processDeps current vis dnext deps pm q).1 = false →
      ∀ dep ∈ deps, dep ∈ vis ∨ (dep, dnext) ∈ (processDeps current vis dnext deps pm q).2.2 := by
  intro deps
  induction deps with
  | nil => intro pm q _ dep hd; simp at hd
  | cons dep0 rest ih =>
    intro pm q hfl dep hd
    by_cases hv : dep0 ∈ vis
    · simp only [processDeps, if_pos hv] at hfl ⊢
      rcases List.mem_cons.1 hd with rfl | hd'
      · exact Or.inl hv
      · exact ih pm q hfl dep hd'
    · by_cases hpm : dep0 ∈ pm.map Prod.fst
      · simp [processDeps, hv, hpm] at hfl
      · simp only [processDeps, if_neg hv, if_neg hpm] at hfl ⊢
        rcases List.mem_cons.1 hd with rfl | hd'
        · exact Or.inr (processDeps_queue_mono current vis dnext rest
            (pm ++ [(dep, current)]) (q ++ [(dep, dnext)]) (dep, dnext)
            (List.mem_append_right _ (List.mem_singleton.2 rfl)))
        · exact ih _ _ hfl dep hd'

theorem mem_dictInsert_twice (g : Graph) (k : String) (v1 v2 : List String) :
    ∀ p ∈ dictInsert (dictInsert g k v1) k v2, p = (k, v2) ∨ p ∈ g := by
  induction g with
  | nil =>
    intro p hp
    rw [show dictInsert ([] : Graph) k v1 = [(k, v1)] from rfl] at hp
    rw [show dictInsert [(k, v1)] k v2 = [(k, v2)] from by simp [dictInsert]] at hp
    exact Or.inl (List.mem_singleton.1 hp)
  | cons q rest ih =>
    intro p hp
    by_cases hq : q.1 = k
    · rw [show dictInsert (q :: rest) k v1 = (k, v1) :: rest from by
        simp [dictInsert, hq]] at hp
      rw [show dictInsert ((k, v1) :: rest) k v2 = (k, v2) :: rest from by
        simp [dictInsert]] at hp
      rcases List.mem_cons.1 hp with h | h
      · exact Or.inl h
      · exact Or.inr (List.mem_cons_of_mem _ h)
    · rw [show dictInsert (q :: rest) k v1 = q :: dictInsert rest k v1 from by
        simp [dictInsert, hq]] at hp
      rw [show dictInsert (q :: dictInsert rest k v1) k v2
          = q :: dictInsert (dictInsert rest k v1) k v2 from by
        simp [dictInsert, hq]] at hp
      rcases List.mem_cons.1 hp with h | h
      · exact Or.inr (h ▸ List.mem_cons_self q rest)
      · rcases ih p h with h' | h'
        · exact Or.inl h'
        · exact Or.inr (List.mem_cons_of_mem _ h')

theorem bfsLoop_closed_invariant (cfg : BuilderCfg) (lookup : String → Option (List String)) :
    ∀ fuel q vis g pm gfin, bfsLoop cfg lookup fuel q vis g pm = some gfin →
      bfsNoDepthCut cfg lookup fuel q vis g pm = true →
      (∀ p ∈ g, ∀ x ∈ p.2, x ∈ vis ∨ x ∈ q.map Prod.fst) →
      (∀ n ∈ vis, isKey g n) →
      ∀ p ∈ gfin, ∀ x ∈ p.2, isKey gfin x := by
  intro fuel
  induction fuel with
  | zero => intro q vis g pm gfin h; simp [bfsLoop] at h
  | succ fuel ih =>
    intro q vis g pm gfin h hnd hvals hkeys
    match q with
    | [] =>
      simp only [bfsLoop, Option.some.injEq] at h
      subst h
      intro p hp x hx
      rcases hvals p hp x hx with h' | h'
      · exact hkeys x h'
      · simp at h'
    | (cur, d) :: rest =>
      by_cases hv : cur ∈ vis
      · rw [bfsLoop_step_visited cfg lookup fuel cur d rest vis g pm hv] at h
        rw [show bfsNoDepthCut cfg lookup (fuel + 1) ((cur, d) :: rest) vis g pm
            = bfsNoDepthCut cfg lookup fuel rest vis g pm from by
          simp [bfsNoDepthCut, hv]] at hnd
        refine ih rest vis g pm gfin h hnd ?_ hkeys
        intro p hp x hx
        rcases hvals p hp x hx with h' | h'
        · exact Or.inl h'
        · simp only [List.map_cons, List.mem_cons] at h'
          rcases h' with rfl | h'
          · exact Or.inl hv
          · exact Or.inr h'
      · by_cases hd : d > cfg.max_depth
        · rw [show bfsNoDepthCut cfg lookup (fuel + 1) ((cur, d) :: rest) vis g pm
              = false from by simp [bfsNoDepthCut, hv, hd]] at hnd
          exact absurd hnd (by simp)
        · have hq' : ∀ p ∈ g, ∀ x ∈ p.2, x ∈ cur :: vis ∨ x ∈ rest.map Prod.fst := by
            intro p hp x hx
            rcases hvals p hp x hx with h' | h'
            · exact Or.inl (List.mem_cons_of_mem _ h')
            · simp only [List.map_cons, List.mem_cons] at h'
              rcases h' with rfl | h'
              · exact Or.inl (List.mem_cons_self _ _)
              · exact Or.inr h'
          match hl : lookup cur with
          | none =>
            rw [bfsLoop_step_fail cfg lookup fuel cur d rest vis g pm hv hd hl] at h
            rw [show bfsNoDepthCut cfg lookup (fuel + 1) ((cur, d) :: rest) vis g pm
                = bfsNoDepthCut cfg lookup fuel rest (cur :: vis) (dictInsert g cur []) pm from by
              simp [bfsNoDepthCut, hv, hd, hl]] at hnd
            refine ih rest (cur :: vis) (dictInsert g cur []) pm gfin h hnd ?_ ?_
            · intro p hp x hx
              rcases mem_dictInsert g cur [] p hp with h' | h'
              · subst h'; simp at hx
              · exact hq' p h' x hx
            · intro n hn
              rcases List.mem_cons.1 hn with rfl | hn'
              · exact isKey_dictInsert_self g n []
              · exact (isKey_dictInsert g cur [] n).2 (Or.inr (hkeys n hn'))
          | some deps =>
            rw [bfsLoop_step_ok cfg lookup fuel cur d rest vis g pm deps hv hd hl] at h
            rw [show bfsNoDepthCut cfg lookup (fuel + 1) ((cur, d) :: rest) vis g pm
                = (match processDeps cur (cur :: vis) (d + 1)
                      (deps.filter (fun dep => !(should_skip_package cfg dep))) pm rest with
                  | (true, pm', q') => bfsNoDepthCut cfg lookup fuel q' (cur :: vis)
                      (dictInsert (dictInsert g cur
                        (deps.filter (fun dep => !(should_skip_package cfg dep)))) cur []) pm'
                  | (false, pm', q') => bfsNoDepthCut cfg lookup fuel q' (cur :: vis)
                      (dictInsert g cur
                        (deps.filter (fun dep => !(should_skip_package cfg dep)))) pm') from by
              simp [bfsNoDepthCut, hv, hd, hl]] at hnd
            set fdeps := deps.filter (fun dep => !(should_skip_package cfg dep)) with hf
            match hp : processDeps cur (cur :: vis) (d + 1) fdeps pm rest with
            | (true, pm', q') =>
              rw [hp] at h hnd
              have hqmono : ∀ e ∈ rest, e ∈ q' := by
                intro e he
                have := processDeps_queue_mono cur (cur :: vis) (d + 1) fdeps pm rest e he
                rw [hp] at this
                exact this
              refine ih q' (cur :: vis) (dictInsert (dictInsert g cur fdeps) cur []) pm' gfin
                h hnd ?_ ?_
              · intro p hpp x hx
                rcases mem_dictInsert_twice g cur fdeps [] p hpp with h' | h'
                · subst h'; simp at hx
                · rcases hq' p h' x hx with h3 | h3
                  · exact Or.inl h3
                  · obtain ⟨e, he, hee⟩ := List.mem_map.1 h3
                    exact Or.inr (List.mem_map.2 ⟨e, hqmono e he, hee⟩)
              · intro n hn
                rcases List.mem_cons.1 hn with rfl | hn'
                · exact isKey_dictInsert_self (dictInsert g n fdeps) n []
                · exact (isKey_dictInsert (dictInsert g cur fdeps) cur [] n).2
                    (Or.inr ((isKey_dictInsert g cur fdeps n).2 (Or.inr (hkeys n hn'))))
            | (false, pm', q') =>
              rw [hp] at h hnd
              have hqmono : ∀ e ∈ rest, e ∈ q' := by
                intro e he
                have := processDeps_queue_mono cur (cur :: vis) (d + 1) fdeps pm rest e he
                rw [hp] at this
                exact this
              have hcov : ∀ dep ∈ fdeps, dep ∈ cur :: vis ∨ (dep, d + 1) ∈ q' := by
                intro dep hdep
                have := processDeps_no_raise_covers cur (cur :: vis) (d + 1) fdeps pm rest
                  (by rw [hp]) dep hdep
                rw [hp] at this
                exact this
              refine ih q' (cur :: vis) (dictInsert g cur fdeps) pm' gfin h hnd ?_ ?_
              · intro p hpp x hx
                rcases mem_dictInsert g cur fdeps p hpp with h' | h'
                · subst h'
                  rcases hcov x hx with h3 | h3
                  · exact Or.inl h3
                  · exact Or.inr (List.mem_map.2 ⟨(x, d + 1), h3, rfl⟩)
                · rcases hq' p h' x hx with h3 | h3
                  · exact Or.inl h3
                  · obtain ⟨e, he, hee⟩ := List.mem_map.1 h3
                    exact Or.inr (List.mem_map.2 ⟨e, hqmono e he, hee⟩)
              · intro n hn
                rcases List.mem_cons.1 hn with rfl | hn'
                · exact isKey_dictInsert_self g n fdeps
                · exact (isKey_dictInsert g cur fdeps n).2 (Or.inr (hkeys n hn'))

/-- C7: for a build in which no dependency is skipped by the filtering rule and
no queue entry is discarded for depth, the returned graph is closed: every name
in any dependency-value list is itself a key. -/
theorem claim_C7_closed_graph :
    ∀ cfg lookup start fuel g,
      (∀ n ds, lookup n = some ds → ∀ d ∈ ds, should_skip_package cfg d = false) →
      bfsNoDepthCut cfg lookup fuel [(start, 0)] [] [] [] = true →
      bfs_build_graph cfg lookup start fuel = some (Except.ok g) →
      ∀ p ∈ g, ∀ x ∈ p.2, isKey g x := by
  intro cfg lookup start fuel g _ hnd hb
  by_cases hroot : should_skip_package cfg start
  · simp [bfs_build_graph, hroot] at hb
  · simp only [bfs_build_graph, hroot, Bool.false_eq_true, if_false,
      Option.map_eq_some'] at hb
    obtain ⟨g0, hg0, heq⟩ := hb
    rw [Except.ok.inj heq] at hg0
    exact bfsLoop_closed_invariant cfg lookup fuel [(start, 0)] [] [] [] g hg0 hnd
      (by intro p hp; simp at hp) (by intro n hn; simp at hn)

/-- Witness for C7 on the two-node chain `A: B`, `B:` with no filtering and
ample depth: the dependency `"B"` recorded under `"A"` is itself a key. -/
theorem claim_C7_closed_graph_witness :
    isKey [("A", ["B"]), ("B", [])] "B" := by
  have h := claim_C7_closed_graph defaultCfg (fun n => some (if n = "A" then ["B"] else []))
    "A" 4 [("A", ["B"]), ("B", [])] ?_ (by rfl) (by rfl)
  · exact h ("A", ["B"]) (by simp) "B" (by simp)
  · intro n ds h d hd
    cases Option.some.inj h
    by_cases hn : n = "A"
    · subst hn
      simp at hd
      subst hd
      decide
    · simp [hn] at hd

/-! ## `dependency_analyzer.py`: `bfs_load_order` (C4) -/

/-- Python string `<=` as a proposition. -/
def pyLe (a b : String) : Prop := strLe a b = true

instance : DecidableRel pyLe := fun a b => by unfold pyLe; infer_instance

/-- Python `list.sort()` on strings: a stable lexicographic sort.  Equal keys
are identical strings, so every correct sorting algorithm produces the same
output list; insertion sort is used because it is structurally recursive. -/
def sortStrings (l : List String) : List String := l.insertionSort pyLe

/-- One pass of the `for _ in range(level_size):` inner loop of
`bfs_load_order`: processes the entire current level (the whole queue
snapshot), accumulating the visited set, the level's newly-visited packages in
pop order, and the next level's queue (duplicates allowed, exactly as the
Python `queue.append` does). -/
def processLevel (g : Graph) : List String → List String → List String → List String →
    List String × List String × List String
  | [], vis, lvl, nq => (vis, lvl, nq)
  | cur :: rest, vis, lvl, nq =>
    if cur ∈ vis then processLevel g rest vis lvl nq
    else processLevel g rest (cur :: vis) (lvl ++ [cur])
      (nq ++ (depsOf g cur).filter (fun dep => !(decide (dep ∈ cur :: vis))))

/-- The `while queue:` loop of `bfs_load_order`: per level, collect the
newly-visited packages, sort them, and extend the load order. -/
def bfsLoadLoop (g : Graph) : Nat → List String → List String → List String → List String
  | 0, _, _, acc => acc
  | fuel + 1, queue, vis, acc =>
    match queue with
    | [] => acc
    | _ :: _ =>
      match processLevel g queue vis [] [] with
      | (vis', lvl, nq) => bfsLoadLoop g fuel nq vis' (acc ++ sortStrings lvl)

/-- `DependencyAnalyzer.bfs_load_order`.  The fuel exceeds the number of
levels any run can have: every level that visits nothing enqueues nothing, so
the loop stops, and at most `|keys| + |dep occurrences| + 1` levels visit a
new package. -/
def bfs_load_order (g : Graph) (start : String) : List String :=
  bfsLoadLoop g (g.length + (allDeps g).length + 2) [start] [] []

theorem charsLe_trans :
    ∀ a b c : List Char, charsLe a b = true → charsLe b c = true → charsLe a c = true := by
  intro a
  induction a with
  | nil => intro b c _ _; rfl
  | cons x xs ih =>
    intro b c h1 h2
    match b, c with
    | [], _ => simp [charsLe] at h1
    | _ :: _, [] => simp [charsLe] at h2
    | y :: ys, z :: zs =>
      simp only [charsLe] at h1 h2 ⊢
      by_cases hxy : x = y
      · rw [if_pos hxy] at h1
        by_cases hyz : y = z
        · rw [if_pos hyz] at h2
          rw [if_pos (hxy.trans hyz)]
          exact ih ys zs h1 h2
        · rw [if_neg hyz] at h2
          have hlt : y < z := of_decide_eq_true h2
          have : x < z := hxy ▸ hlt
          rw [if_neg (fun hh => hyz (hxy ▸ hh)), decide_eq_true this]
      · rw [if_neg hxy] at h1
        have hlt : x < y := of_decide_eq_true h1
        by_cases hyz : y = z
        · have : x < z := hyz ▸ hlt
          rw [if_neg (fun hh => hxy (hh.trans hyz.symm)), decide_eq_true this]
        · rw [if_neg hyz] at h2
          have hlt2 : y < z := of_decide_eq_true h2
          have : x < z := lt_trans hlt hlt2
          rw [if_neg (fun hh : x = z => absurd (hh ▸ hlt) (not_lt_of_gt hlt2)),
            decide_eq_true this]

theorem charsLe_total : ∀ a b : List Char, (charsLe a b || charsLe b a) = true := by
  intro a
  induction a with
  | nil => intro b; simp [charsLe]
  | cons x xs ih =>
    intro b
    match b with
    | [] => simp [charsLe]
    | y :: ys =>
      simp only [charsLe]
      by_cases hxy : x = y
      · rw [if_pos hxy, if_pos hxy.symm]
        exact ih ys
      · rw [if_neg hxy, if_neg (fun hh => hxy hh.symm)]
        rcases lt_or_gt_of_ne hxy with h | h
        · simp [h]
        · simp [h]

theorem strLe_trans (a b c : String) (h1 : strLe a b = true) (h2 : strLe b c = true) :
    strLe a c = true := charsLe_trans a.data b.data c.data h1 h2

theorem strLe_total (a b : String) : (strLe a b || strLe b a) = true :=
  charsLe_total a.data b.data

instance : IsTotal String pyLe :=
  ⟨fun a b => by unfold pyLe; simpa using strLe_total a b⟩

instance : IsTrans String pyLe := ⟨fun a b c => strLe_trans a b c⟩

theorem sortStrings_sorted (l : List String) : (sortStrings l).Sorted pyLe :=
  List.sorted_insertionSort pyLe l

/-- The sequence of UNSORTED level blocks an actual `bfs_load_order` run
produces: mirrors `bfsLoadLoop` step for step, but collects each level's
newly-visited packages in raw pop order instead of sorting and appending
them.  Used to state what the sort in the loop does to the real levels. -/
def bfsRawLevels (g : Graph) : Nat → List String → List String → List (List String)
  | 0, _, _ => []
  | fuel + 1, queue, vis =>
    match queue with
    | [] => []
    | _ :: _ =>
      match processLevel g queue vis [] [] with
      | (vis', lvl, nq) => lvl :: bfsRawLevels g fuel nq vis'

theorem bfsLoadLoop_eq_sorted_rawLevels (g : Graph) :
    ∀ fuel q vis acc, bfsLoadLoop g fuel q vis acc
      = acc ++ ((bfsRawLevels g fuel q vis).map sortStrings).flatten := by
  intro fuel
  induction fuel with
  | zero =>
    intro q vis acc
    simp [bfsLoadLoop, bfsRawLevels]
  | succ fuel ih =>
    intro q vis acc
    match q with
    | [] => simp [bfsLoadLoop, bfsRawLevels]
    | c :: rest =>
      match hpl : processLevel g (c :: rest) vis [] [] with
      | (vis', lvl, nq) =>
        rw [show bfsLoadLoop g (fuel + 1) (c :: rest) vis acc
            = bfsLoadLoop g fuel nq vis' (acc ++ sortStrings lvl) from by
          simp [bfsLoadLoop, hpl]]
        rw [show bfsRawLevels g (fuel + 1) (c :: rest) vis
            = lvl :: bfsRawLevels g fuel nq vis' from by
          simp [bfsRawLevels, hpl]]
        rw [ih nq vis' (acc ++ sortStrings lvl)]
        rw [List.map_cons, List.flatten_cons, List.append_assoc]

/-- C4: `bfs_load_order` processes the queue one full level at a time and its
output is EXACTLY the concatenation, over the run's actual levels, of the
lexicographic sort of that level's newly-visited packages: the first conjunct
ties the output to the raw (unsorted) level blocks `bfsRawLevels` computed by
the same loop, and the second states that `sortStrings` is the lexicographic
sort (a `pyLe`-sorted permutation) of each such block.  On the spec fixture
`A: B C`, `B: D`, `C: D`, `D:` the result is `[A, B, C, D]`; and on the same
fixture with `A`'s adjacency stored in reverse (`A: C B`) the raw levels are
`[[A], [C, B], [D]]` yet the result is still `[A, B, C, D]` — the level block
`[C, B]` really is reordered by the per-level sort. -/
theorem claim_C4_bfs_load_order :
    (∀ g start, bfs_load_order g start
      = ((bfsRawLevels g (g.length + (allDeps g).length + 2) [start] []).map
          sortStrings).flatten) ∧
    (∀ l : List String, (sortStrings l).Sorted pyLe ∧ (sortStrings l).Perm l) ∧
    bfs_load_order fixtureGraph "A" = ["A", "B", "C", "D"] ∧
    bfsRawLevels [("A", ["C", "B"]), ("B", ["D"]), ("C", ["D"]), ("D", [])]
      (([("A", ["C", "B"]), ("B", ["D"]), ("C", ["D"]), ("D", [])] : Graph).length
        + (allDeps [("A", ["C", "B"]), ("B", ["D"]), ("C", ["D"]), ("D", [])]).length + 2)
      ["A"] [] = [["A"], ["C", "B"], ["D"]] ∧
    bfs_load_order [("A", ["C", "B"]), ("B", ["D"]), ("C", ["D"]), ("D", [])] "A"
      = ["A", "B", "C", "D"] := by
  refine ⟨?_, ?_, rfl, rfl, rfl⟩
  · intro g start
    have h := bfsLoadLoop_eq_sorted_rawLevels g
      (g.length + (allDeps g).length + 2) [start] [] []
    simpa [bfs_load_order] using h
  · intro l
    exact ⟨sortStrings_sorted l, List.perm_insertionSort pyLe l⟩

/-! ## `dependency_analyzer.py`: `topological_sort` (C2) -/

/-- The initial `in_degree` table: Python seeds every key with `0`, then adds
one per occurrence of a name in any value list, so `in_degree[x]` is the
number of occurrences of `x` across all dependency lists. -/
def indegInit (g : Graph) : String → Int := fun x => ((allDeps g).count x : Int)

/-- `deque([node for node in graph if in_degree[node] == 0])`. -/
def seedQueue (g : Graph) : List String :=
  (keysOf g).filter (fun k => indegInit g k == 0)

/-- The `for neighbor in graph.get(current, []):` loop: decrement the
neighbor's in-degree and enqueue it if the new value is zero. -/
def kahnProcess : List String → (String → Int) → List String → (String → Int) × List String
  | [], ind, q => (ind, q)
  | nb :: rest, ind, q =>
    let ind' := Function.update ind nb (ind nb - 1)
    if ind' nb == 0 then kahnProcess rest ind' (q ++ [nb])
    else kahnProcess rest ind' q

/-- The `while queue:` loop of `topological_sort` (pop, append to result,
process neighbors).  The fixed fuel in `topological_sort` dominates the number
of iterations: every name enters the queue at most once. -/
def kahnLoop (g : Graph) : Nat → (String → Int) → List String → List String → List String
  | 0, _, _, result => result
  | _ + 1, _, [], result => result
  | fuel + 1, ind, cur :: qrest, result =>
    match kahnProcess (depsOf g cur) ind qrest with
    | (ind', q') => kahnLoop g fuel ind' q' (result ++ [cur])

/-- `DependencyAnalyzer.topological_sort`, including the degraded fallback that
appends the keys missing from the result when the length check fails. -/
def topological_sort (g : Graph) : List String :=
  let result := kahnLoop g (g.length + (allDeps g).length + 1) (indegInit g) (seedQueue g) []
  if result.length ≠ g.length then
    result ++ (keysOf g).filter (fun k => !(decide (k ∈ result)))
  else result

/-- C2 (counterexample): on the one-entry acyclic mapping `A: B` (`B` is `A`'s
dependency), `topological_sort` returns `["A", "B"]`: the dependency `B` does
NOT precede its dependent `A` — the order is dependents-first — and the result
has two names, not one name per mapping entry. -/
theorem claim_C2_topological_cex :
    topological_sort [("A", ["B"])] = ["A", "B"] ∧
    ¬ ["B", "A"].Sublist (topological_sort [("A", ["B"])]) ∧
    (topological_sort [("A", ["B"])]).length ≠ ([("A", ["B"])] : Graph).length := by
  refine ⟨rfl, ?_, by decide⟩
  intro h
  rw [show topological_sort [("A", ["B"])] = ["A", "B"] from rfl] at h
  exact absurd h (by decide)

/-! ## Proof-layer view of the mutable `in_degree` table -/

/-- Entries whose key has not yet been appended to the result. -/
def remEntries (g : Graph) (r : List String) : Graph :=
  g.filter (fun p => !(decide (p.1 ∈ r)))

/-- All dependency occurrences contributed by not-yet-processed entries: the
current `in_degree` of `x` is exactly the number of occurrences of `x` here. -/
def remDeps (g : Graph) (r : List String) : List String :=
  ((remEntries g r).map Prod.snd).flatten

theorem remDeps_nil (g : Graph) : remDeps g [] = allDeps g := by
  simp [remDeps, remEntries, allDeps]

theorem remDeps_cons (p : String × List String) (rest : Graph) (r : List String) :
    remDeps (p :: rest) r = if p.1 ∈ r then remDeps rest r else p.2 ++ remDeps rest r := by
  by_cases h : p.1 ∈ r
  · simp [remDeps, remEntries, List.filter_cons, h]
  · simp [remDeps, remEntries, List.filter_cons, h]

theorem mem_remDeps (g : Graph) (r : List String) (y : String) :
    y ∈ remDeps g r ↔ ∃ p ∈ g, p.1 ∉ r ∧ y ∈ p.2 := by
  simp only [remDeps, remEntries, List.mem_flatten, List.mem_map]
  constructor
  · rintro ⟨l, ⟨p, hp, rfl⟩, hy⟩
    have := List.mem_filter.1 hp
    refine ⟨p, this.1, ?_, hy⟩
    simpa using this.2
  · rintro ⟨p, hp, hpr, hy⟩
    exact ⟨p.2, ⟨p, List.mem_filter.2 ⟨hp, by simpa using hpr⟩, rfl⟩, hy⟩

theorem depsOf_entry (g : Graph) (k : String) :
    depsOf g k = [] ∨ ∃ p ∈ g, p.1 = k ∧ depsOf g k = p.2 := by
  induction g with
  | nil => exact Or.inl rfl
  | cons p rest ih =>
    by_cases h : p.1 = k
    · exact Or.inr ⟨p, List.mem_cons_self _ _, h, by simp [depsOf, h]⟩
    · rcases ih with h' | ⟨q, hq, hq1, hq2⟩
      · exact Or.inl (by simp [depsOf, h, h'])
      · exact Or.inr ⟨q, List.mem_cons_of_mem _ hq, hq1, by simp [depsOf, h, hq2]⟩

theorem depsOf_of_mem_nodup (g : Graph) (KN : (keysOf g).Nodup) :
    ∀ p ∈ g, depsOf g p.1 = p.2 := by
  induction g with
  | nil => intro p hp; simp at hp
  | cons q rest ih =>
    have hkn : q.1 ∉ List.map Prod.fst rest ∧ (keysOf rest).Nodup := by
      have := KN
      simp only [keysOf, List.map_cons, List.nodup_cons] at this
      exact ⟨this.1, this.2⟩
    intro p hp
    rcases List.mem_cons.1 hp with rfl | hp'
    · simp [depsOf]
    · have hne : q.1 ≠ p.1 := by
        intro hh
        exact hkn.1 (hh ▸ List.mem_map.2 ⟨p, hp', rfl⟩)
      simp only [depsOf, if_neg hne]
      exact ih hkn.2 p hp'

theorem edge_of_entry (g : Graph) (KN : (keysOf g).Nodup) (p : String × List String)
    (hp : p ∈ g) (b : String) (hb : b ∈ p.2) : edgeOf g p.1 b := by
  unfold edgeOf
  rw [depsOf_of_mem_nodup g KN p hp]
  exact hb

theorem depsOf_sub_allDeps (g : Graph) (k : String) : ∀ y ∈ depsOf g k, y ∈ allDeps g := by
  intro y hy
  rcases depsOf_entry g k with h | ⟨p, hp, _, h2⟩
  · rw [h] at hy; simp at hy
  · rw [h2] at hy
    exact List.mem_flatten.2 ⟨p.2, List.mem_map.2 ⟨p, hp, rfl⟩, hy⟩

/-- A finite nonempty set in which every element has a direct predecessor
inside the set contains a node on a nonempty closed walk. -/
theorem exists_cycle_of_preds (g : Graph) (R : List String) (hne : R ≠ [])
    (hpred : ∀ x ∈ R, ∃ k ∈ R, edgeOf g k x) :
    ∃ z, Relation.TransGen (edgeOf g) z z := by
  classical
  obtain ⟨x0, hx0⟩ : ∃ x, x ∈ R := by
    cases R with
    | nil => exact absurd rfl hne
    | cons a t => exact ⟨a, List.mem_cons_self _ _⟩
  have step : ∀ x : {x // x ∈ R}, ∃ y : {y // y ∈ R}, edgeOf g y.1 x.1 := by
    rintro ⟨x, hx⟩
    obtain ⟨k, hk, he⟩ := hpred x hx
    exact ⟨⟨k, hk⟩, he⟩
  let f : ℕ → {x // x ∈ R} :=
    fun n => Nat.recAux ⟨x0, hx0⟩ (fun _ prev => Classical.choose (step prev)) n
  have hstep : ∀ n, edgeOf g (f (n + 1)).1 (f n).1 :=
    fun n => Classical.choose_spec (step (f n))
  have hchain : ∀ i d, Relation.TransGen (edgeOf g) (f (i + d + 1)).1 (f i).1 := by
    intro i d
    induction d with
    | zero => exact Relation.TransGen.single (hstep i)
    | succ d ih =>
      have hs := hstep (i + d + 1)
      have : i + (d + 1) + 1 = (i + d + 1) + 1 := by omega
      rw [this]
      exact Relation.TransGen.head hs ih
  have hmaps : ∀ n : Fin (R.length + 1), n ∈ (Finset.univ : Finset (Fin (R.length + 1))) →
      (f n.1).1 ∈ R.toFinset :=
    fun n _ => List.mem_toFinset.2 (f n.1).2
  have hcard : R.toFinset.card < (Finset.univ : Finset (Fin (R.length + 1))).card := by
    rw [Finset.card_univ, Fintype.card_fin]
    exact Nat.lt_succ_of_le (List.toFinset_card_le R)
  obtain ⟨i, _, j, _, hij, heq⟩ :=
    Finset.exists_ne_map_eq_of_card_lt_of_maps_to hcard hmaps
  have hijv : i.1 ≠ j.1 := fun hh => hij (Fin.ext hh)
  rcases Nat.lt_or_ge i.1 j.1 with hlt | hge
  · obtain ⟨d, hd⟩ : ∃ d, j.1 = i.1 + d + 1 := ⟨j.1 - i.1 - 1, by omega⟩
    have hch := hchain i.1 d
    rw [← hd] at hch
    rw [← heq] at hch
    exact ⟨(f i.1).1, hch⟩
  · have hlt' : j.1 < i.1 := lt_of_le_of_ne hge (Ne.symm hijv)
    obtain ⟨d, hd⟩ : ∃ d, i.1 = j.1 + d + 1 := ⟨i.1 - j.1 - 1, by omega⟩
    have hch := hchain j.1 d
    rw [← hd] at hch
    rw [heq] at hch
    exact ⟨(f j.1).1, hch⟩

theorem remDeps_of_not_key (h : Graph) (r : List String) (c : String) (hc : ¬ isKey h c) :
    remDeps h (r ++ [c]) = remDeps h r := by
  induction h with
  | nil => rfl
  | cons p rest ih =>
    have hpc : p.1 ≠ c := by
      intro hh
      exact hc (List.mem_map.2 ⟨p, List.mem_cons_self _ _, hh⟩)
    have hc' : ¬ isKey rest c := by
      intro hh
      obtain ⟨q, hq, hq1⟩ := List.mem_map.1 hh
      exact hc (List.mem_map.2 ⟨q, List.mem_cons_of_mem _ hq, hq1⟩)
    have hmem : (p.1 ∈ r ++ [c]) ↔ p.1 ∈ r := by
      constructor
      · intro hh
        rcases List.mem_append.1 hh with h' | h'
        · exact h'
        · exact absurd (List.mem_singleton.1 h') hpc
      · exact fun h' => List.mem_append_left _ h'
    rw [remDeps_cons, remDeps_cons]
    by_cases h2 : p.1 ∈ r
    · rw [if_pos h2, if_pos (hmem.2 h2), ih hc']
    · rw [if_neg h2, if_neg (fun hh => h2 (hmem.1 hh)), ih hc']

theorem count_remDeps_mono (g : Graph) (r : List String) (c : String) (x : String) :
    List.count x (remDeps g (r ++ [c])) ≤ List.count x (remDeps g r) := by
  induction g with
  | nil => simp [remDeps, remEntries]
  | cons p rest ih =>
    rw [remDeps_cons, remDeps_cons]
    by_cases h2 : p.1 ∈ r
    · rw [if_pos h2, if_pos (List.mem_append_left _ h2)]
      exact ih
    · rw [if_neg h2]
      by_cases h1 : p.1 ∈ r ++ [c]
      · rw [if_pos h1, List.count_append]
        exact ih.trans (Nat.le_add_left _ _)
      · rw [if_neg h1, List.count_append, List.count_append]
        exact Nat.add_le_add_left ih _

theorem count_remDeps_split (g : Graph) (KN : (keysOf g).Nodup) (r : List String)
    (c : String) (hc : c ∉ r) (x : String) :
    List.count x (remDeps g r)
      = List.count x (depsOf g c) + List.count x (remDeps g (r ++ [c])) := by
  induction g with
  | nil => simp [remDeps, remEntries, depsOf]
  | cons p rest ih =>
    have hkn : p.1 ∉ List.map Prod.fst rest ∧ (keysOf rest).Nodup := by
      have := KN
      simp only [keysOf, List.map_cons, List.nodup_cons] at this
      exact ⟨this.1, this.2⟩
    by_cases hp : p.1 = c
    · rw [remDeps_cons, if_neg (hp ▸ hc)]
      rw [remDeps_cons, if_pos (by rw [hp]; exact List.mem_append_right _ (List.mem_singleton.2 rfl))]
      rw [show depsOf (p :: rest) c = p.2 from by simp [depsOf, hp]]
      rw [List.count_append]
      have hnk : ¬ isKey rest c := by
        intro hh
        exact hkn.1 (hp ▸ hh)
      rw [remDeps_of_not_key rest r c hnk]
    · rw [remDeps_cons, remDeps_cons]
      rw [show depsOf (p :: rest) c = depsOf rest c from by simp [depsOf, hp]]
      by_cases h2 : p.1 ∈ r
      · rw [if_pos h2, if_pos (List.mem_append_left _ h2)]
        exact ih hkn.2
      · rw [if_neg h2, if_neg (by
          intro hh
          rcases List.mem_append.1 hh with h' | h'
          · exact h2 h'
          · exact hp (List.mem_singleton.1 h'))]
        rw [List.count_append, List.count_append, ih hkn.2]
        omega

theorem kahnProcess_cons (nb : String) (rest : List String) (ind : String → Int)
    (q : List String) :
    kahnProcess (nb :: rest) ind q
      = if Function.update ind nb (ind nb - 1) nb == 0
        then kahnProcess rest (Function.update ind nb (ind nb - 1)) (q ++ [nb])
        else kahnProcess rest (Function.update ind nb (ind nb - 1)) q := rfl

theorem kahnProcess_spec (B : String → Nat) (rall : List String) :
    ∀ (l : List String) (ind : String → Int) (q : List String),
      (∀ x, ind x = (B x : Int) + List.count x l) →
      (∀ y ∈ q, ind y = 0) →
      (rall ++ q).Nodup →
      (∀ y ∈ l, y ∉ rall) →
      (∀ x, (kahnProcess l ind q).1 x = (B x : Int)) ∧
      (∀ y ∈ q, y ∈ (kahnProcess l ind q).2) ∧
      (∀ y ∈ (kahnProcess l ind q).2, y ∈ q ∨ y ∈ l) ∧
      (∀ y ∈ (kahnProcess l ind q).2, (kahnProcess l ind q).1 y = 0) ∧
      (∀ x, B x = 0 → 0 < List.count x l → x ∈ (kahnProcess l ind q).2) ∧
      (rall ++ (kahnProcess l ind q).2).Nodup := by
  intro l
  induction l with
  | nil =>
    intro ind q hind hq0 hnd hlr
    refine ⟨?_, ?_, ?_, ?_, ?_, ?_⟩
    · intro x
      have := hind x
      simpa [kahnProcess] using this
    · intro y hy
      simpa [kahnProcess] using hy
    · intro y hy
      exact Or.inl (by simpa [kahnProcess] using hy)
    · intro y hy
      exact hq0 y (by simpa [kahnProcess] using hy)
    · intro x _ hcount
      simp at hcount
    · simpa [kahnProcess] using hnd
  | cons nb rest ih =>
    intro ind q hind hq0 hnd hlr
    have hupd_nb : Function.update ind nb (ind nb - 1) nb = ind nb - 1 := by simp
    have hupd_ne : ∀ x, x ≠ nb → Function.update ind nb (ind nb - 1) x = ind x := by
      intro x hx
      simp [Function.update_noteq hx]
    have hind1 : ∀ x, Function.update ind nb (ind nb - 1) x = (B x : Int) + List.count x rest := by
      intro x
      by_cases hx : x = nb
      · subst hx
        rw [hupd_nb, hind x, List.count_cons_self]
        push_cast
        ring
      · rw [hupd_ne x hx, hind x, List.count_cons_of_ne hx]
    have hzero_pair : ∀ y, ind y = 0 → B y = 0 ∧ List.count y (nb :: rest) = 0 := by
      intro y hy
      have h := hind y
      rw [hy] at h
      constructor <;> omega
    have hq0' : ∀ y ∈ q, Function.update ind nb (ind nb - 1) y = 0 := by
      intro y hy
      obtain ⟨hB, hcnt⟩ := hzero_pair y (hq0 y hy)
      rw [List.count_cons] at hcnt
      rw [hind1 y, hB]
      have : List.count y rest = 0 := by omega
      rw [this]
      simp
    have hnb_q : nb ∉ q := by
      intro hq
      obtain ⟨_, hcnt⟩ := hzero_pair nb (hq0 nb hq)
      rw [List.count_cons_self] at hcnt
      omega
    by_cases hz : Function.update ind nb (ind nb - 1) nb = 0
    · have hz' : ind nb - 1 = 0 := hupd_nb ▸ hz
      have hstep : kahnProcess (nb :: rest) ind q
          = kahnProcess rest (Function.update ind nb (ind nb - 1)) (q ++ [nb]) := by
        rw [kahnProcess_cons]
        simp [hz']
      have hnd' : (rall ++ (q ++ [nb])).Nodup := by
        rw [← List.append_assoc]
        refine (List.nodup_append).2 ⟨hnd, by simp, ?_⟩
        intro a ha hb
        rw [List.mem_singleton] at hb
        rw [hb] at ha
        rcases List.mem_append.1 ha with h' | h'
        · exact hlr nb (List.mem_cons_self _ _) h'
        · exact hnb_q h'
      have hq0'' : ∀ y ∈ q ++ [nb], Function.update ind nb (ind nb - 1) y = 0 := by
        intro y hy
        rcases List.mem_append.1 hy with h' | h'
        · exact hq0' y h'
        · rw [List.mem_singleton] at h'
          subst h'
          exact hz
      obtain ⟨c1, c2, c5, cq0, c4, c6⟩ := ih (Function.update ind nb (ind nb - 1)) (q ++ [nb])
        hind1 hq0'' hnd' (fun y hy => hlr y (List.mem_cons_of_mem _ hy))
      rw [hstep]
      refine ⟨c1, ?_, ?_, cq0, ?_, c6⟩
      · intro y hy
        exact c2 y (List.mem_append_left _ hy)
      · intro y hy
        rcases c5 y hy with h' | h'
        · rcases List.mem_append.1 h' with h'' | h''
          · exact Or.inl h''
          · rw [List.mem_singleton] at h''
            exact Or.inr (h'' ▸ List.mem_cons_self _ _)
        · exact Or.inr (List.mem_cons_of_mem _ h')
      · intro x hB hcount
        rw [List.count_cons] at hcount
        by_cases hr : 0 < List.count x rest
        · exact c4 x hB hr
        · have hx : x = nb := by
            by_contra hxe
            have hbeq : (nb == x) = false :=
              beq_eq_false_iff_ne.2 (fun hh => hxe hh.symm)
            rw [hbeq] at hcount
            simp at hcount
            exact hr (List.count_pos_iff.2 hcount)
          subst hx
          exact c2 x (List.mem_append_right _ (List.mem_singleton.2 rfl))
    · have hz' : ¬ ind nb - 1 = 0 := fun hh => hz (hupd_nb.symm ▸ hh)
      have hstep : kahnProcess (nb :: rest) ind q
          = kahnProcess rest (Function.update ind nb (ind nb - 1)) q := by
        rw [kahnProcess_cons]
        simp [hz']
      obtain ⟨c1, c2, c5, cq0, c4, c6⟩ := ih (Function.update ind nb (ind nb - 1)) q
        hind1 hq0' hnd (fun y hy => hlr y (List.mem_cons_of_mem _ hy))
      rw [hstep]
      refine ⟨c1, c2, ?_, cq0, ?_, c6⟩
      · intro y hy
        rcases c5 y hy with h' | h'
        · exact Or.inl h'
        · exact Or.inr (List.mem_cons_of_mem _ h')
      · intro x hB hcount
        rw [List.count_cons] at hcount
        by_cases hr : 0 < List.count x rest
        · exact c4 x hB hr
        · by_cases hxe : x = nb
          · subst hxe
            exfalso
            apply hz
            rw [hind1 x, hB]
            have : List.count x rest = 0 := by omega
            rw [this]
            simp
          · exfalso
            have hbeq : (nb == x) = false :=
              beq_eq_false_iff_ne.2 (fun hh => hxe hh.symm)
            rw [hbeq] at hcount
            simp at hcount
            exact hr (List.count_pos_iff.2 hcount)

theorem kahn_wrapup (g : Graph) (KN : (keysOf g).Nodup)
    (CL : ∀ p ∈ g, ∀ d ∈ p.2, isKey g d) (r : List String) (hnd : r.Nodup)
    (hsub : ∀ y ∈ r, y ∈ keysOf g) (hall : ∀ y ∈ keysOf g, y ∈ r)
    (horder : ∀ p ∈ g, ∀ b ∈ p.2, b ∈ r → [p.1, b].Sublist r) :
    r.Perm (keysOf g) ∧ ∀ p ∈ g, ∀ b ∈ p.2, [p.1, b].Sublist r := by
  refine ⟨?_, fun p hp b hb => horder p hp b hb (hall b (CL p hp b hb))⟩
  refine List.perm_of_nodup_nodup_toFinset_eq hnd KN ?_
  ext a
  simp only [List.mem_toFinset]
  exact ⟨fun h => hsub a h, fun h => hall a h⟩

/-- Exit analysis when the queue has emptied: with an acyclic, closed graph
every key must already have been appended, else the never-appended keys would
all have predecessors among themselves, yielding a cycle. -/
theorem kahn_all_keys (g : Graph) (KN : (keysOf g).Nodup) (AC : Acyclic g)
    (ind : String → Int) (r : List String)
    (I1 : ∀ x, ind x = (List.count x (remDeps g r) : Int))
    (I5 : ∀ x ∈ keysOf g, ind x = 0 → x ∈ r ∨ x ∈ ([] : List String)) :
    ∀ y ∈ keysOf g, y ∈ r := by
  set R := (keysOf g).filter (fun k => !(decide (k ∈ r))) with hR
  by_cases hRe : R = []
  · intro y hy
    by_contra hyr
    have : y ∈ R := by
      rw [hR]
      exact List.mem_filter.2 ⟨hy, by simpa using hyr⟩
    rw [hRe] at this
    simp at this
  · exfalso
    have hpred : ∀ x ∈ R, ∃ k ∈ R, edgeOf g k x := by
      intro x hx
      have hx' := List.mem_filter.1 (hR ▸ hx)
      have hxk : x ∈ keysOf g := hx'.1
      have hxr : x ∉ r := by simpa using hx'.2
      have hind : ind x ≠ 0 := by
        intro h0
        rcases I5 x hxk h0 with h | h
        · exact hxr h
        · simp at h
      have hcount : 0 < List.count x (remDeps g r) := by
        rcases Nat.eq_zero_or_pos (List.count x (remDeps g r)) with h0 | hpos
        · exact absurd (by rw [I1 x, h0]; simp) hind
        · exact hpos
      obtain ⟨p, hp, hpr, hxp⟩ := (mem_remDeps g r x).1 (List.count_pos_iff.1 hcount)
      refine ⟨p.1, ?_, edge_of_entry g KN p hp x hxp⟩
      rw [hR]
      exact List.mem_filter.2 ⟨List.mem_map.2 ⟨p, hp, rfl⟩, by simpa using hpr⟩
    obtain ⟨z, hz⟩ := exists_cycle_of_preds g R hRe hpred
    exact AC z hz

theorem kahnLoop_cons (g : Graph) (fuel : Nat) (ind : String → Int) (cur : String)
    (qrest : List String) (r : List String) :
    kahnLoop g (fuel + 1) ind (cur :: qrest) r
      = kahnLoop g fuel (kahnProcess (depsOf g cur) ind qrest).1
          (kahnProcess (depsOf g cur) ind qrest).2 (r ++ [cur]) := rfl

theorem kahnLoop_spec (g : Graph) (KN : (keysOf g).Nodup)
    (CL : ∀ p ∈ g, ∀ d ∈ p.2, isKey g d) (AC : Acyclic g) :
    ∀ fuel (ind : String → Int) q r,
      (∀ x, ind x = (List.count x (remDeps g r) : Int)) →
      (∀ y ∈ q, ind y = 0) →
      (r ++ q).Nodup →
      (∀ y, y ∈ r ++ q → y ∈ keysOf g) →
      (∀ x ∈ keysOf g, ind x = 0 → x ∈ r ∨ x ∈ q) →
      (∀ p ∈ g, ∀ b ∈ p.2, (b ∈ r → [p.1, b].Sublist r) ∧ (b ∈ q → p.1 ∈ r)) →
      ((keysOf g).length ≤ fuel + r.length) →
      (∀ z ∈ r, List.count z (remDeps g r) = 0) →
      (kahnLoop g fuel ind q r).Perm (keysOf g) ∧
      (∀ p ∈ g, ∀ b ∈ p.2, [p.1, b].Sublist (kahnLoop g fuel ind q r)) := by
  intro fuel
  induction fuel with
  | zero =>
    intro ind q r I1 I2 I3 I4 I5 I6 I7 I8
    have hndr : r.Nodup := (List.nodup_append.1 I3).1
    have hsub : ∀ y ∈ r, y ∈ keysOf g := fun y hy => I4 y (List.mem_append_left _ hy)
    have hall : ∀ y ∈ keysOf g, y ∈ r := by
      have hcard1 : r.toFinset.card = r.length := by
        rw [List.card_toFinset, hndr.dedup]
      have hcard2 : (keysOf g).toFinset.card = (keysOf g).length := by
        rw [List.card_toFinset, KN.dedup]
      have hsubF : r.toFinset ⊆ (keysOf g).toFinset := by
        intro a ha
        exact List.mem_toFinset.2 (hsub a (List.mem_toFinset.1 ha))
      have hle : (keysOf g).toFinset.card ≤ r.toFinset.card := by
        rw [hcard1, hcard2]
        simpa using I7
      have := Finset.eq_of_subset_of_card_le hsubF hle
      intro y hy
      exact List.mem_toFinset.1 (this ▸ List.mem_toFinset.2 hy)
    simpa [kahnLoop] using
      kahn_wrapup g KN CL r hndr hsub hall (fun p hp b hb hbr => (I6 p hp b hb).1 hbr)
  | succ fuel ih =>
    intro ind q r I1 I2 I3 I4 I5 I6 I7 I8
    match q with
    | [] =>
      have hndr : r.Nodup := (List.nodup_append.1 I3).1
      have hsub : ∀ y ∈ r, y ∈ keysOf g := fun y hy => I4 y (List.mem_append_left _ hy)
      have hall := kahn_all_keys g KN AC ind r I1 I5
      simpa [kahnLoop] using
        kahn_wrapup g KN CL r hndr hsub hall (fun p hp b hb hbr => (I6 p hp b hb).1 hbr)
    | cur :: qrest =>
      have hcur_key : cur ∈ keysOf g :=
        I4 cur (List.mem_append_right _ (List.mem_cons_self _ _))
      have hcur_notr : cur ∉ r := by
        intro hc
        exact (List.nodup_append.1 I3).2.2 hc (List.mem_cons_self _ _)
      have hindcur : ind cur = 0 := I2 cur (List.mem_cons_self _ _)
      have hcount_cur : List.count cur (remDeps g r) = 0 := by
        have := I1 cur
        rw [hindcur] at this
        exact_mod_cast this.symm
      have hql : ∀ y ∈ depsOf g cur, y ∉ r ++ [cur] := by
        intro y hy hmem
        rcases List.mem_append.1 hmem with h' | h'
        · -- y already appended: its remaining count is zero, yet cur's entry still counts it
          have hy_rem : y ∈ remDeps g r := by
            rcases depsOf_entry g cur with hde | ⟨p, hp, hp1, hp2⟩
            · rw [hde] at hy; simp at hy
            · exact (mem_remDeps g r y).2 ⟨p, hp, hp1 ▸ hcur_notr, hp2 ▸ hy⟩
          have := I8 y h'
          rw [List.count_eq_zero] at this
          exact this hy_rem
        · -- y = cur: a self-loop, impossible in an acyclic graph
          rw [List.mem_singleton] at h'
          subst h'
          exact AC y (Relation.TransGen.single hy)
      have hind_split : ∀ x, ind x
          = (List.count x (remDeps g (r ++ [cur])) : Int) + List.count x (depsOf g cur) := by
        intro x
        rw [I1 x, count_remDeps_split g KN r cur hcur_notr x]
        push_cast
        ring
      have hq0rest : ∀ y ∈ qrest, ind y = 0 := fun y hy => I2 y (List.mem_cons_of_mem _ hy)
      have hnd' : ((r ++ [cur]) ++ qrest).Nodup := by
        rw [← List.append_cons]
        exact I3
      obtain ⟨c1, c2, c5, cq0, c4, c6⟩ :=
        kahnProcess_spec (fun x => List.count x (remDeps g (r ++ [cur]))) (r ++ [cur])
          (depsOf g cur) ind qrest hind_split hq0rest hnd' hql
      rw [kahnLoop_cons]
      have hkey_of_l : ∀ y ∈ depsOf g cur, y ∈ keysOf g := by
        intro y hy
        rcases depsOf_entry g cur with hde | ⟨p, hp, _, hp2⟩
        · rw [hde] at hy; simp at hy
        · exact CL p hp y (hp2 ▸ hy)
      refine ih (kahnProcess (depsOf g cur) ind qrest).1 (kahnProcess (depsOf g cur) ind qrest).2
        (r ++ [cur]) c1 cq0 c6 ?_ ?_ ?_ ?_ ?_
      · -- I4'
        intro y hy
        rcases List.mem_append.1 hy with h' | h'
        · rcases List.mem_append.1 h' with h'' | h''
          · exact I4 y (List.mem_append_left _ h'')
          · rw [List.mem_singleton] at h''
            exact h'' ▸ hcur_key
        · rcases c5 y h' with h'' | h''
          · exact I4 y (List.mem_append_right _ (List.mem_cons_of_mem _ h''))
          · exact hkey_of_l y h''
      · -- I5'
        intro x hx hx0
        have hB : List.count x (remDeps g (r ++ [cur])) = 0 := by
          have := c1 x
          rw [hx0] at this
          exact_mod_cast this.symm
        by_cases hold : ind x = 0
        · rcases I5 x hx hold with h' | h'
          · exact Or.inl (List.mem_append_left _ h')
          · rcases List.mem_cons.1 h' with rfl | h''
            · exact Or.inl (List.mem_append_right _ (List.mem_singleton.2 rfl))
            · exact Or.inr (c2 x h'')
        · have hcl : 0 < List.count x (depsOf g cur) := by
            have := hind_split x
            rw [hB] at this
            rcases Nat.eq_zero_or_pos (List.count x (depsOf g cur)) with h0 | hpos
            · rw [h0] at this
              exact absurd (by rw [this]; simp) hold
            · exact hpos
          exact Or.inr (c4 x hB hcl)
      · -- I6'
        intro p hp b hb
        constructor
        · intro hbr
          rcases List.mem_append.1 hbr with h' | h'
          · exact ((I6 p hp b hb).1 h').trans (List.sublist_append_left r [cur])
          · rw [List.mem_singleton] at h'
            subst h'
            have hpr : p.1 ∈ r := (I6 p hp b hb).2 (List.mem_cons_self _ _)
            exact List.Sublist.append (List.singleton_sublist.2 hpr) (List.Sublist.refl [b])
        · intro hbq
          have hB : List.count b (remDeps g (r ++ [cur])) = 0 := by
            have := c1 b
            rw [cq0 b hbq] at this
            exact_mod_cast this.symm
          by_contra hpr
          have : b ∈ remDeps g (r ++ [cur]) := (mem_remDeps g (r ++ [cur]) b).2 ⟨p, hp, hpr, hb⟩
          rw [← List.count_pos_iff] at this
          omega
      · -- I7'
        rw [List.length_append, List.length_singleton]
        omega
      · -- I8'
        intro z hz
        rcases List.mem_append.1 hz with h' | h'
        · have := count_remDeps_mono g r cur z
          have h0 := I8 z h'
          omega
        · rw [List.mem_singleton] at h'
          subst h'
          have := count_remDeps_mono g r z z
          omega

/-- A graph admitting a strictly edge-increasing rank function is acyclic. -/
theorem rank_acyclic (g : Graph) (f : String → Nat)
    (h : ∀ p ∈ g, ∀ b ∈ p.2, f p.1 < f b) : Acyclic g := by
  have hedge : ∀ a b, edgeOf g a b → f a < f b := by
    intro a b hab
    unfold edgeOf at hab
    rcases depsOf_entry g a with hde | ⟨p, hp, hp1, hp2⟩
    · rw [hde] at hab
      simp at hab
    · rw [hp2] at hab
      exact hp1 ▸ h p hp b hab
  intro x hx
  have hmono : ∀ {a b : String}, Relation.TransGen (edgeOf g) a b → f a < f b := by
    intro a b hab
    induction hab with
    | single h1 => exact hedge _ _ h1
    | tail _ h2 ih => exact lt_trans ih (hedge _ _ h2)
  exact lt_irrefl (f x) (hmono hx)

/-- C2 (amended): on an acyclic mapping with duplicate-free keys in which every
listed dependency is itself a key, `topological_sort` returns a permutation of
the keys (N names, each node exactly once), and for every edge the DEPENDENT
precedes its dependency — the reverse of the direction the claim states. -/
theorem claim_C2_amended :
    ∀ g : Graph, (keysOf g).Nodup → (∀ p ∈ g, ∀ d ∈ p.2, isKey g d) → Acyclic g →
      (topological_sort g).Perm (keysOf g) ∧
      ∀ p ∈ g, ∀ b ∈ p.2, [p.1, b].Sublist (topological_sort g) := by
  intro g KN CL AC
  have hmain := kahnLoop_spec g KN CL AC (g.length + (allDeps g).length + 1)
    (indegInit g) (seedQueue g) []
    (by intro x; rw [remDeps_nil g]; rfl)
    (by
      intro y hy
      exact eq_of_beq (List.mem_filter.1 hy).2)
    (by
      simp only [List.nil_append]
      exact List.Nodup.filter _ KN)
    (by
      intro y hy
      simp only [List.nil_append] at hy
      exact (List.mem_filter.1 hy).1)
    (by
      intro x hx h0
      refine Or.inr (List.mem_filter.2 ⟨hx, ?_⟩)
      rw [h0]
      rfl)
    (by
      intro p hp b hb
      constructor
      · intro hbr
        simp at hbr
      · intro hbq
        exfalso
        have h0 : indegInit g b = 0 := eq_of_beq (List.mem_filter.1 hbq).2
        have hcnt : List.count b (allDeps g) = 0 := by
          unfold indegInit at h0
          exact_mod_cast h0
        rw [List.count_eq_zero] at hcnt
        exact hcnt (List.mem_flatten.2 ⟨p.2, List.mem_map.2 ⟨p, hp, rfl⟩, hb⟩))
    (by
      simp only [keysOf, List.length_map, List.length_nil]
      omega)
    (by intro z hz; simp at hz)
  have hlen : (kahnLoop g (g.length + (allDeps g).length + 1)
      (indegInit g) (seedQueue g) []).length = g.length := by
    rw [hmain.1.length_eq]
    simp [keysOf]
  have htop : topological_sort g
      = kahnLoop g (g.length + (allDeps g).length + 1) (indegInit g) (seedQueue g) [] := by
    simp only [topological_sort]
    rw [if_neg (by rw [hlen]; simp)]
  rw [htop]
  exact hmain

/-- Witness for the amended C2 on the fixture: `topological_sort` permutes the
four keys, and the dependent `"A"` precedes its dependency `"B"`. -/
theorem claim_C2_amended_witness :
    (topological_sort fixtureGraph).Perm (keysOf fixtureGraph) ∧
    ["A", "B"].Sublist (topological_sort fixtureGraph) := by
  have h := claim_C2_amended fixtureGraph (by decide) (by decide)
    (rank_acyclic fixtureGraph
      (fun s => if s = "A" then 0 else if s = "D" then 2 else 1) (by decide))
  exact ⟨h.1, h.2 ("A", ["B", "C"]) (by simp [fixtureGraph]) "B" (by simp)⟩

/-! ## `dependency_analyzer.py`: `dfs_load_order` (C5) -/

/-- The mutable state of `dfs_load_order`: the `visited` set and the
`load_order` accumulator. -/
structure DfsState where
  visited : List String
  load_order : List String

/-- The recursive `dfs(package)` closure: mark visited, recurse into each
stored dependency, then append the package (postorder).  Fuel bounds the
recursion depth; `dfs_load_order` supplies more fuel than any chain of
not-yet-visited packages can consume. -/
def dfsAux (g : Graph) : Nat → String → DfsState → DfsState
  | 0, _, st => st
  | fuel + 1, p, st =>
    if p ∈ st.visited then st
    else
      let st1 : DfsState := ⟨p :: st.visited, st.load_order⟩
      let st2 := (depsOf g p).foldl (fun s d => dfsAux g fuel d s) st1
      ⟨st2.visited, st2.load_order ++ [p]⟩

/-- `DependencyAnalyzer.dfs_load_order`. -/
def dfs_load_order (g : Graph) (start : String) : List String :=
  (dfsAux g (g.length + (allDeps g).length + 2) start ⟨[], []⟩).load_order

theorem dfsAux_succ (g : Graph) (fuel : Nat) (p : String) (st : DfsState) :
    dfsAux g (fuel + 1) p st
      = if p ∈ st.visited then st
        else
          DfsState.mk (((depsOf g p).foldl (fun s d => dfsAux g fuel d s)
              ⟨p :: st.visited, st.load_order⟩).visited)
            (((depsOf g p).foldl (fun s d => dfsAux g fuel d s)
              ⟨p :: st.visited, st.load_order⟩).load_order ++ [p]) := rfl

theorem filter_visited_le (U : List String) (vis vis' : List String)
    (h : ∀ x ∈ vis, x ∈ vis') :
    (U.filter (fun u => !(decide (u ∈ vis')))).length
      ≤ (U.filter (fun u => !(decide (u ∈ vis)))).length := by
  refine (List.monotone_filter_right U ?_).length_le
  intro a ha
  simp only [Bool.not_eq_true', decide_eq_false_iff_not] at ha ⊢
  exact fun hv => ha (h a hv)

theorem filter_visited_lt (U : List String) (vis : List String) (p : String)
    (hpU : p ∈ U) (hpv : p ∉ vis) :
    (U.filter (fun u => !(decide (u ∈ p :: vis)))).length
      < (U.filter (fun u => !(decide (u ∈ vis)))).length := by
  have hsub : (U.filter (fun u => !(decide (u ∈ p :: vis)))).Sublist
      (U.filter (fun u => !(decide (u ∈ vis)))) := by
    apply List.monotone_filter_right
    intro a ha
    simp only [Bool.not_eq_true', decide_eq_false_iff_not] at ha ⊢
    exact fun hv => ha (List.mem_cons_of_mem _ hv)
  refine lt_of_le_of_ne hsub.length_le (fun heq => ?_)
  have hEq := hsub.eq_of_length heq
  have hp2 : p ∈ U.filter (fun u => !(decide (u ∈ vis))) :=
    List.mem_filter.2 ⟨hpU, by simpa using hpv⟩
  rw [← hEq] at hp2
  have hp3 := (List.mem_filter.1 hp2).2
  simp at hp3

theorem dfsAux_spec (g : Graph) (AC : Acyclic g) (U : List String)
    (hU2 : ∀ k ∈ U, ∀ d ∈ depsOf g k, d ∈ U) :
    ∀ fuel p (st : DfsState) (G : List String),
      p ∈ U →
      (U.filter (fun u => !(decide (u ∈ st.visited)))).length < fuel →
      (∀ x, x ∈ st.visited ↔ x ∈ st.load_order ∨ x ∈ G) →
      (∀ x ∈ st.load_order, ∀ d ∈ depsOf g x, [d, x].Sublist st.load_order ∨ d ∈ G) →
      (∀ x ∈ st.load_order, x ∉ G) →
      (∀ x ∈ st.load_order, ∀ d ∈ depsOf g x, d ∈ st.visited) →
      (∃ t, (dfsAux g fuel p st).load_order = st.load_order ++ t) ∧
      (∀ x ∈ st.visited, x ∈ (dfsAux g fuel p st).visited) ∧
      (∀ x, x ∈ (dfsAux g fuel p st).visited ↔
        x ∈ (dfsAux g fuel p st).load_order ∨ x ∈ G) ∧
      (∀ x ∈ (dfsAux g fuel p st).load_order, ∀ d ∈ depsOf g x,
        [d, x].Sublist (dfsAux g fuel p st).load_order ∨ d ∈ G) ∧
      (∀ x ∈ (dfsAux g fuel p st).load_order, x ∉ G) ∧
      (∀ x ∈ (dfsAux g fuel p st).load_order, ∀ d ∈ depsOf g x,
        d ∈ (dfsAux g fuel p st).visited) ∧
      (∀ x ∈ (dfsAux g fuel p st).visited, x ∉ st.visited →
        Relation.ReflTransGen (edgeOf g) p x) ∧
      p ∈ (dfsAux g fuel p st).visited := by
  intro fuel
  induction fuel with
  | zero =>
    intro p st G _ hfuel
    exact absurd hfuel (Nat.not_lt_zero _)
  | succ fuel ih =>
    intro p st G hpU hfuel h1 h2 h4 h5
    by_cases hv : p ∈ st.visited
    · rw [dfsAux_succ, if_pos hv]
      exact ⟨⟨[], by simp⟩, fun x hx => hx, h1, h2, h4, h5,
        fun x hx hx' => absurd hx hx', hv⟩
    · rw [dfsAux_succ, if_neg hv]
      have fold : ∀ l : List String, (∀ d ∈ l, d ∈ depsOf g p) →
          ∀ s : DfsState,
          (U.filter (fun u => !(decide (u ∈ s.visited)))).length < fuel →
          (∀ x, x ∈ s.visited ↔ x ∈ s.load_order ∨ x ∈ p :: G) →
          (∀ x ∈ s.load_order, ∀ d ∈ depsOf g x, [d, x].Sublist s.load_order ∨ d ∈ p :: G) →
          (∀ x ∈ s.load_order, x ∉ p :: G) →
          (∀ x ∈ s.load_order, ∀ d ∈ depsOf g x, d ∈ s.visited) →
          (∀ x ∈ s.visited, x ∉ p :: st.visited → Relation.ReflTransGen (edgeOf g) p x) →
          (∃ t, (l.foldl (fun s d => dfsAux g fuel d s) s).load_order = s.load_order ++ t) ∧
          (∀ x ∈ s.visited, x ∈ (l.foldl (fun s d => dfsAux g fuel d s) s).visited) ∧
          (∀ x, x ∈ (l.foldl (fun s d => dfsAux g fuel d s) s).visited ↔
            x ∈ (l.foldl (fun s d => dfsAux g fuel d s) s).load_order ∨ x ∈ p :: G) ∧
          (∀ x ∈ (l.foldl (fun s d => dfsAux g fuel d s) s).load_order, ∀ d ∈ depsOf g x,
            [d, x].Sublist (l.foldl (fun s d => dfsAux g fuel d s) s).load_order ∨
              d ∈ p :: G) ∧
          (∀ x ∈ (l.foldl (fun s d => dfsAux g fuel d s) s).load_order, x ∉ p :: G) ∧
          (∀ x ∈ (l.foldl (fun s d => dfsAux g fuel d s) s).load_order, ∀ d ∈ depsOf g x,
            d ∈ (l.foldl (fun s d => dfsAux g fuel d s) s).visited) ∧
          (∀ x ∈ (l.foldl (fun s d => dfsAux g fuel d s) s).visited,
            x ∉ p :: st.visited → Relation.ReflTransGen (edgeOf g) p x) ∧
          (∀ d ∈ l, d ∈ (l.foldl (fun s d => dfsAux g fuel d s) s).visited) := by
        intro l
        induction l with
        | nil =>
          intro _ s hsf hs1 hs2 hs4 hs5 hsreach
          simp only [List.foldl_nil]
          exact ⟨⟨[], by simp⟩, fun x hx => hx, hs1, hs2, hs4, hs5, hsreach, by simp⟩
        | cons d rest ihl =>
          intro hl s hsf hs1 hs2 hs4 hs5 hsreach
          have hd : d ∈ depsOf g p := hl d (List.mem_cons_self _ _)
          have hdU : d ∈ U := hU2 p hpU d hd
          obtain ⟨d0, d1, d2, d3, d4, d5, d6, d7⟩ := ih d s (p :: G) hdU hsf hs1 hs2 hs4 hs5
          have hreach' : ∀ x ∈ (dfsAux g fuel d s).visited, x ∉ p :: st.visited →
              Relation.ReflTransGen (edgeOf g) p x := by
            intro x hx hx'
            by_cases hxs : x ∈ s.visited
            · exact hsreach x hxs hx'
            · exact Relation.ReflTransGen.head hd (d6 x hx hxs)
          have hsf' : (U.filter
              (fun u => !(decide (u ∈ (dfsAux g fuel d s).visited)))).length < fuel :=
            lt_of_le_of_lt (filter_visited_le U s.visited _ d1) hsf
          simp only [List.foldl_cons]
          obtain ⟨r0, r1, r2, r3, r4, r5, r6, r7⟩ :=
            ihl (fun d' hd' => hl d' (List.mem_cons_of_mem _ hd'))
              (dfsAux g fuel d s) hsf' d2 d3 d4 d5 hreach'
          refine ⟨?_, ?_, r2, r3, r4, r5, r6, ?_⟩
          · obtain ⟨t1, ht1⟩ := d0
            obtain ⟨t2, ht2⟩ := r0
            exact ⟨t1 ++ t2, by rw [ht2, ht1, List.append_assoc]⟩
          · exact fun x hx => r1 x (d1 x hx)
          · intro d' hd'
            rcases List.mem_cons.1 hd' with rfl | hd''
            · exact r1 d' d7
            · exact r7 d' hd''
      have hs1₁ : ∀ x, x ∈ p :: st.visited ↔ x ∈ st.load_order ∨ x ∈ p :: G := by
        intro x
        constructor
        · intro hx
          rcases List.mem_cons.1 hx with rfl | hx'
          · exact Or.inr (List.mem_cons_self _ _)
          · rcases (h1 x).1 hx' with h' | h'
            · exact Or.inl h'
            · exact Or.inr (List.mem_cons_of_mem _ h')
        · intro hx
          rcases hx with h' | h'
          · exact List.mem_cons_of_mem _ ((h1 x).2 (Or.inl h'))
          · rcases List.mem_cons.1 h' with rfl | h''
            · exact List.mem_cons_self _ _
            · exact List.mem_cons_of_mem _ ((h1 x).2 (Or.inr h''))
      have hs2₁ : ∀ x ∈ st.load_order, ∀ d ∈ depsOf g x,
          [d, x].Sublist st.load_order ∨ d ∈ p :: G := by
        intro x hx d hd
        rcases h2 x hx d hd with h' | h'
        · exact Or.inl h'
        · exact Or.inr (List.mem_cons_of_mem _ h')
      have hs4₁ : ∀ x ∈ st.load_order, x ∉ p :: G := by
        intro x hx hmem
        rcases List.mem_cons.1 hmem with rfl | h'
        · exact hv ((h1 x).2 (Or.inl hx))
        · exact h4 x hx h'
      have hs5₁ : ∀ x ∈ st.load_order, ∀ d ∈ depsOf g x, d ∈ p :: st.visited :=
        fun x hx d hd => List.mem_cons_of_mem _ (h5 x hx d hd)
      have hsf₁ : (U.filter
          (fun u => !(decide (u ∈ (p :: st.visited))))).length < fuel := by
        have := filter_visited_lt U st.visited p hpU hv
        omega
      obtain ⟨f0, f1, f2, f3, f4, f5, f6, f7⟩ :=
        fold (depsOf g p) (fun d hd => hd) ⟨p :: st.visited, st.load_order⟩
          hsf₁ hs1₁ hs2₁ hs4₁ hs5₁ (fun x hx hx' => absurd hx hx')
      set st2 := (depsOf g p).foldl (fun s d => dfsAux g fuel d s)
        (⟨p :: st.visited, st.load_order⟩ : DfsState) with hst2
      refine ⟨?_, ?_, ?_, ?_, ?_, ?_, ?_, ?_⟩
      · obtain ⟨t, ht⟩ := f0
        exact ⟨t ++ [p], by
          show st2.load_order ++ [p] = st.load_order ++ (t ++ [p])
          rw [ht, List.append_assoc]⟩
      · intro x hx
        exact f1 x (List.mem_cons_of_mem _ hx)
      · intro x
        constructor
        · intro hx
          rcases (f2 x).1 hx with hxl | hxG
          · exact Or.inl (List.mem_append_left _ hxl)
          · rcases List.mem_cons.1 hxG with rfl | hxG'
            · exact Or.inl (List.mem_append_right _ (List.mem_singleton.2 rfl))
            · exact Or.inr hxG'
        · intro hx
          rcases hx with hxl | hxG
          · rcases List.mem_append.1 hxl with h' | h'
            · exact (f2 x).2 (Or.inl h')
            · rw [List.mem_singleton] at h'
              exact h' ▸ f1 p (List.mem_cons_self _ _)
          · exact (f2 x).2 (Or.inr (List.mem_cons_of_mem _ hxG))
      · intro x hx d hd
        rcases List.mem_append.1 hx with hxl | hxp
        · rcases f3 x hxl d hd with hsub3 | hG3
          · exact Or.inl (hsub3.trans (List.sublist_append_left _ [p]))
          · rcases List.mem_cons.1 hG3 with rfl | hG4
            · by_cases hxload : x ∈ st.load_order
              · exfalso
                rcases h2 x hxload d hd with hsub4 | hG5
                · exact hv ((h1 d).2 (Or.inl (hsub4.subset (List.mem_cons_self _ _))))
                · exact hv ((h1 d).2 (Or.inr hG5))
              · exfalso
                have hxIn2 : x ∈ st2.visited := (f2 x).2 (Or.inl hxl)
                have hxnp : x ≠ d := fun hh => (f4 x hxl) (hh ▸ List.mem_cons_self d G)
                have hxnG : x ∉ G := fun hh => (f4 x hxl) (List.mem_cons_of_mem _ hh)
                have hxnvis : x ∉ st.visited := by
                  intro hh
                  rcases (h1 x).1 hh with h' | h'
                  · exact hxload h'
                  · exact hxnG h'
                have hxnst1 : x ∉ d :: st.visited := by
                  intro hh
                  rcases List.mem_cons.1 hh with hh' | hh'
                  · exact hxnp hh'
                  · exact hxnvis hh'
                have hrtg : Relation.ReflTransGen (edgeOf g) d x := f6 x hxIn2 hxnst1
                exact AC d (Relation.TransGen.tail' hrtg hd)
            · exact Or.inr hG4
        · rw [List.mem_singleton] at hxp
          subst hxp
          have hdvis : d ∈ st2.visited := f7 d hd
          rcases (f2 d).1 hdvis with hdl | hdG
          · exact Or.inl (List.Sublist.append (List.singleton_sublist.2 hdl)
              (List.Sublist.refl [x]))
          · rcases List.mem_cons.1 hdG with rfl | hdG'
            · exact absurd (Relation.TransGen.single hd) (AC _)
            · exact Or.inr hdG'
      · intro x hx
        rcases List.mem_append.1 hx with h' | h'
        · exact fun hG => (f4 x h') (List.mem_cons_of_mem _ hG)
        · rw [List.mem_singleton] at h'
          subst h'
          exact fun hG => hv ((h1 x).2 (Or.inr hG))
      · intro x hx d hd
        rcases List.mem_append.1 hx with h' | h'
        · exact f5 x h' d hd
        · rw [List.mem_singleton] at h'
          subst h'
          exact f7 d hd
      · intro x hx hxv
        by_cases hxst1 : x ∈ p :: st.visited
        · rcases List.mem_cons.1 hxst1 with rfl | h'
          · exact Relation.ReflTransGen.refl
          · exact absurd h' hxv
        · exact f6 x hx hxst1
      · exact f1 p (List.mem_cons_self _ _)

instance (g : Graph) (a b : String) : Decidable (edgeOf g a b) := by
  unfold edgeOf
  infer_instance

/-- C5: `dfs_load_order` is postorder DFS: on every acyclic graph, every
stored dependency of a node in the result precedes that node, every node
reachable from the root is in the result, and on the fixture starting at `A`
the order is `[D, B, C, A]` (`D` before `B` and `C`, all before `A`). -/
theorem claim_C5_dfs_load_order :
    (∀ g start, Acyclic g →
      (∀ x ∈ dfs_load_order g start, ∀ d ∈ depsOf g x,
        [d, x].Sublist (dfs_load_order g start)) ∧
      (∀ x, Relation.ReflTransGen (edgeOf g) start x → x ∈ dfs_load_order g start)) ∧
    dfs_load_order fixtureGraph "A" = ["D", "B", "C", "A"] := by
  constructor
  · intro g start AC
    have hU2 : ∀ k ∈ start :: (keysOf g ++ allDeps g), ∀ d ∈ depsOf g k,
        d ∈ start :: (keysOf g ++ allDeps g) := by
      intro k _ d hd
      exact List.mem_cons_of_mem _ (List.mem_append_right _ (depsOf_sub_allDeps g k d hd))
    have hfuel : ((start :: (keysOf g ++ allDeps g)).filter
        (fun u => !(decide (u ∈ (⟨[], []⟩ : DfsState).visited)))).length
        < g.length + (allDeps g).length + 2 := by
      have hlen : ((start :: (keysOf g ++ allDeps g)).filter
          (fun u => !(decide (u ∈ (⟨[], []⟩ : DfsState).visited)))).length
          = (start :: (keysOf g ++ allDeps g)).length := by
        rw [show (fun (u : String) => !(decide (u ∈ (⟨[], []⟩ : DfsState).visited)))
            = fun _ => true from by funext u; simp]
        rw [List.filter_true]
      rw [hlen]
      simp only [List.length_cons, List.length_append, keysOf, List.length_map]
      omega
    obtain ⟨c0, c1, c2, c3, c4, c5, c6, c7⟩ :=
      dfsAux_spec g AC (start :: (keysOf g ++ allDeps g)) hU2
        (g.length + (allDeps g).length + 2) start ⟨[], []⟩ []
        (List.mem_cons_self _ _) hfuel
        (by intro x; simp)
        (by intro x hx; simp at hx)
        (by intro x hx; simp at hx)
        (by intro x hx; simp at hx)
    have hdef : dfs_load_order g start
        = (dfsAux g (g.length + (allDeps g).length + 2) start ⟨[], []⟩).load_order := rfl
    have hkey : ∀ y, y ∈ (dfsAux g (g.length + (allDeps g).length + 2) start
        ⟨[], []⟩).visited ↔ y ∈ dfs_load_order g start := by
      intro y
      rw [hdef]
      have := c2 y
      simpa using this
    constructor
    · intro x hx d hd
      rw [hdef] at hx ⊢
      rcases c3 x hx d hd with h' | h'
      · exact h'
      · simp at h'
    · intro x hreach
      induction hreach with
      | refl => exact (hkey start).1 c7
      | tail hab hbc ihx =>
        rw [hdef] at ihx
        exact (hkey _).1 (c5 _ ihx _ hbc)
  · rfl

/-- Witness for C5 on the fixture: by the theorem, `D` precedes `B`, and the
reachable node `D` is present in the result. -/
theorem claim_C5_dfs_load_order_witness :
    ["D", "B"].Sublist (dfs_load_order fixtureGraph "A") ∧
    "D" ∈ dfs_load_order fixtureGraph "A" := by
  have h := claim_C5_dfs_load_order.1 fixtureGraph "A"
    (rank_acyclic fixtureGraph
      (fun s => if s = "A" then 0 else if s = "D" then 2 else 1) (by decide))
  refine ⟨h.1 "B" (by decide) "D" (by decide), h.2 "D" ?_⟩
  exact Relation.ReflTransGen.head (show edgeOf fixtureGraph "A" "B" by decide)
    (Relation.ReflTransGen.head (show edgeOf fixtureGraph "B" "D" by decide)
      Relation.ReflTransGen.refl)

/-! ## `dependency_analyzer.py`: `find_cycles` (C10) -/

/-- The mutable state of `find_cycles`: the global `visited` set, the
`recursion_stack`, and the accumulated `cycles` list. -/
structure CycState where
  visited : List String
  rstack : List String
  cycles : List (List String)

/-- The recursive `dfs_cycle(node, path)` closure: a neighbor on the recursion
stack records the path slice from that neighbor's position onward as one cycle
and stops descending; a fully-visited neighbor is skipped; otherwise the node
is pushed, its neighbors explored with the extended path, and the node removed
from the recursion stack on exit. -/
def dfsCycle (g : Graph) : Nat → String → List String → CycState → CycState
  | 0, _, _, st => st
  | fuel + 1, node, path, st =>
    if node ∈ st.rstack then
      ⟨st.visited, st.rstack, st.cycles ++ [path.drop (path.indexOf node)]⟩
    else if node ∈ st.visited then st
    else
      let st1 : CycState := ⟨node :: st.visited, node :: st.rstack, st.cycles⟩
      let st2 := (depsOf g node).foldl
        (fun s nb => dfsCycle g fuel nb (path ++ [node]) s) st1
      ⟨st2.visited, st2.rstack.erase node, st2.cycles⟩

/-- `DependencyAnalyzer.find_cycles`: run `dfs_cycle` from every
not-yet-visited key, covering disconnected components.  The fixed fuel
dominates any recursion depth: every frame that descends marks a fresh node. -/
def find_cycles (g : Graph) : List (List String) :=
  (g.foldl (fun st p =>
      if p.1 ∈ st.visited then st
      else dfsCycle g (g.length + (allDeps g).length + 1) p.1 [] st)
    ⟨[], [], []⟩).cycles

theorem dfsCycle_succ (g : Graph) (fuel : Nat) (node : String) (path : List String)
    (st : CycState) :
    dfsCycle g (fuel + 1) node path st
      = if node ∈ st.rstack then
          ⟨st.visited, st.rstack, st.cycles ++ [path.drop (path.indexOf node)]⟩
        else if node ∈ st.visited then st
        else
          CycState.mk
            (((depsOf g node).foldl (fun s nb => dfsCycle g fuel nb (path ++ [node]) s)
              ⟨node :: st.visited, node :: st.rstack, st.cycles⟩).visited)
            (((depsOf g node).foldl (fun s nb => dfsCycle g fuel nb (path ++ [node]) s)
              ⟨node :: st.visited, node :: st.rstack, st.cycles⟩).rstack.erase node)
            (((depsOf g node).foldl (fun s nb => dfsCycle g fuel nb (path ++ [node]) s)
              ⟨node :: st.visited, node :: st.rstack, st.cycles⟩).cycles) := rfl

/-- The single directed loop `x0 -> x1 -> ... -> xn -> x0` as an adjacency
mapping (each node maps to the next, the last maps back to the first). -/
def chainAux (first : String) : List String → Graph
  | [] => []
  | [x] => [(x, [first])]
  | x :: y :: rest => (x, [y]) :: chainAux first (y :: rest)

/-- The loop graph of a nonempty node list. -/
def chainGraph : List String → Graph
  | [] => []
  | x :: rest => chainAux x (x :: rest)

theorem keysOf_chainAux (first : String) : ∀ L, keysOf (chainAux first L) = L := by
  intro L
  induction L with
  | nil => rfl
  | cons x rest ih =>
    cases rest with
    | nil => rfl
    | cons y rest' =>
      calc keysOf ((x, [y]) :: chainAux first (y :: rest'))
          = x :: keysOf (chainAux first (y :: rest')) := rfl
        _ = x :: y :: rest' := by rw [ih]

theorem depsOf_chainAux (first : String) :
    ∀ P c S, (P ++ c :: S).Nodup →
      depsOf (chainAux first (P ++ c :: S)) c = [S.headD first] := by
  intro P
  induction P with
  | nil =>
    intro c S ND
    cases S with
    | nil => simp [chainAux, depsOf]
    | cons s S' => simp [chainAux, depsOf]
  | cons p P' ihP =>
    intro c S ND
    have ND' : (p :: (P' ++ c :: S)).Nodup := by simpa using ND
    have hne : p ≠ c := by
      intro hh
      exact (List.nodup_cons.1 ND').1
        (hh ▸ List.mem_append_right _ (List.mem_cons_self _ _))
    have htail : (P' ++ c :: S).Nodup := (List.nodup_cons.1 ND').2
    cases hzr : P' ++ c :: S with
    | nil => exact absurd hzr (by simp)
    | cons z rest =>
      have hstep : chainAux first ((p :: P') ++ c :: S)
          = (p, [z]) :: chainAux first (z :: rest) := by
        show chainAux first (p :: (P' ++ c :: S)) = _
        rw [hzr]
        rfl
      rw [hstep]
      rw [show depsOf ((p, [z]) :: chainAux first (z :: rest)) c
          = depsOf (chainAux first (z :: rest)) c from by simp [depsOf, hne]]
      rw [← hzr]
      exact ihP c S htail

theorem depsOf_chainGraph (m0 : String) (mt : List String) (ND : (m0 :: mt).Nodup)
    (P : List String) (c : String) (S : List String) (hM : m0 :: mt = P ++ c :: S) :
    depsOf (chainGraph (m0 :: mt)) c = [S.headD m0] := by
  show depsOf (chainAux m0 (m0 :: mt)) c = [S.headD m0]
  rw [hM]
  exact depsOf_chainAux m0 P c S (hM ▸ ND)

theorem dfsCycle_chain (m0 : String) (mt : List String) (ND : (m0 :: mt).Nodup) :
    ∀ S P c fuel, m0 :: mt = P ++ c :: S → S.length + 2 ≤ fuel →
      dfsCycle (chainGraph (m0 :: mt)) fuel c P ⟨P.reverse, P.reverse, []⟩
        = ⟨(m0 :: mt).reverse, P.reverse, [m0 :: mt]⟩ := by
  intro S
  induction S with
  | nil =>
    intro P c fuel hM hfuel
    obtain ⟨f, rfl⟩ : ∃ f, fuel = f + 1 := ⟨fuel - 1, by omega⟩
    have ND' : (P ++ [c]).Nodup := hM ▸ ND
    have hcP : c ∉ P := by
      intro hc
      exact List.disjoint_of_nodup_append ND' hc (List.mem_cons_self _ _)
    have hcPrev : c ∉ P.reverse := by
      rw [List.mem_reverse]
      exact hcP
    rw [dfsCycle_succ]
    rw [if_neg (show c ∉ (⟨P.reverse, P.reverse, []⟩ : CycState).rstack from hcPrev)]
    rw [if_neg (show c ∉ (⟨P.reverse, P.reverse, []⟩ : CycState).visited from hcPrev)]
    rw [show depsOf (chainGraph (m0 :: mt)) c = [m0] from
      depsOf_chainGraph m0 mt ND P c [] hM]
    simp only [List.foldl_cons, List.foldl_nil]
    obtain ⟨f', rfl⟩ : ∃ f', f = f' + 1 := ⟨f - 1, by omega⟩
    rw [dfsCycle_succ]
    have hm0stack : m0 ∈ (⟨c :: P.reverse, c :: P.reverse,
        ([] : List (List String))⟩ : CycState).rstack := by
      show m0 ∈ c :: P.reverse
      have hmem : m0 ∈ P ++ [c] := by
        rw [← hM]
        exact List.mem_cons_self _ _
      rcases List.mem_append.1 hmem with h' | h'
      · exact List.mem_cons_of_mem _ (List.mem_reverse.2 h')
      · rw [List.mem_singleton] at h'
        exact h' ▸ List.mem_cons_self _ _
    rw [if_pos hm0stack]
    have hidx : (P ++ [c]).indexOf m0 = 0 := by
      rw [← hM]
      exact List.indexOf_cons_self _ _
    have hrevM : (m0 :: mt).reverse = c :: P.reverse := by
      rw [hM, List.reverse_append]
      rfl
    simp only [hidx, List.drop_zero, List.nil_append]
    rw [hrevM, ← hM]
    simp [List.erase_cons_head]
  | cons s S' ihS =>
    intro P c fuel hM hfuel
    obtain ⟨f, rfl⟩ : ∃ f, fuel = f + 1 := ⟨fuel - 1, by omega⟩
    have ND' : (P ++ c :: s :: S').Nodup := hM ▸ ND
    have hcP : c ∉ P := by
      intro hc
      exact List.disjoint_of_nodup_append ND' hc (List.mem_cons_self _ _)
    have hcPrev : c ∉ P.reverse := by
      rw [List.mem_reverse]
      exact hcP
    rw [dfsCycle_succ]
    rw [if_neg (show c ∉ (⟨P.reverse, P.reverse, []⟩ : CycState).rstack from hcPrev)]
    rw [if_neg (show c ∉ (⟨P.reverse, P.reverse, []⟩ : CycState).visited from hcPrev)]
    rw [show depsOf (chainGraph (m0 :: mt)) c = [s] from
      depsOf_chainGraph m0 mt ND P c (s :: S') hM]
    simp only [List.foldl_cons, List.foldl_nil]
    have hM' : m0 :: mt = (P ++ [c]) ++ s :: S' := by
      rw [hM, List.append_cons]
    have hrev : (P ++ [c]).reverse = c :: P.reverse := by
      rw [List.reverse_append]
      rfl
    have hinner := ihS (P ++ [c]) s f hM'
      (by simp only [List.length_cons] at hfuel ⊢; omega)
    rw [hrev] at hinner
    rw [hinner]
    simp [List.erase_cons_head]

theorem fold_skip_visited (g : Graph) (fuelN : Nat) :
    ∀ (entries : List (String × List String)) (st0 : CycState),
      (∀ p ∈ entries, p.1 ∈ st0.visited) →
      entries.foldl (fun st p =>
        if p.1 ∈ st.visited then st
        else dfsCycle g fuelN p.1 [] st) st0 = st0 := by
  intro entries
  induction entries with
  | nil => intro st0 _; rfl
  | cons e es ih =>
    intro st0 h
    simp only [List.foldl_cons]
    rw [if_pos (h e (List.mem_cons_self _ _))]
    exact ih st0 (fun p hp => h p (List.mem_cons_of_mem _ hp))

/-- C10: on every single directed loop (each node points to the next, the last
back to the first) with distinct node names, `find_cycles` returns exactly one
cycle, whose members are exactly the loop's nodes in order. -/
theorem claim_C10_find_cycles :
    ∀ M : List String, M ≠ [] → M.Nodup → find_cycles (chainGraph M) = [M] := by
  intro M hne ND
  cases M with
  | nil => exact absurd rfl hne
  | cons m0 mt =>
    have hkeys : keysOf (chainGraph (m0 :: mt)) = m0 :: mt := keysOf_chainAux m0 (m0 :: mt)
    have hlen : (chainGraph (m0 :: mt)).length = mt.length + 1 := by
      have h1 : (keysOf (chainGraph (m0 :: mt))).length = (m0 :: mt).length := by
        rw [hkeys]
      simpa [keysOf] using h1
    have hchain := dfsCycle_chain m0 mt ND mt [] m0
      ((chainGraph (m0 :: mt)).length + (allDeps (chainGraph (m0 :: mt))).length + 1)
      (by simp) (by rw [hlen]; omega)
    have hchain' : dfsCycle (chainGraph (m0 :: mt))
        ((chainGraph (m0 :: mt)).length + (allDeps (chainGraph (m0 :: mt))).length + 1)
        m0 [] ⟨[], [], []⟩ = ⟨(m0 :: mt).reverse, [], [m0 :: mt]⟩ := by
      simpa using hchain
    have hex : ∃ e es, chainGraph (m0 :: mt) = e :: es := by
      cases hcg2 : chainGraph (m0 :: mt) with
      | nil =>
        rw [hcg2] at hkeys
        simp [keysOf] at hkeys
      | cons e es => exact ⟨e, es, rfl⟩
    obtain ⟨e, es, hcg⟩ := hex
    have hkeys2 : e.1 :: keysOf es = m0 :: mt := by
      rw [← hkeys, hcg]
      rfl
    have he1 : e.1 = m0 := by
      injection hkeys2
    have hkes : keysOf es = mt := by
      injection hkeys2
    show ((chainGraph (m0 :: mt)).foldl (fun st p =>
        if p.1 ∈ st.visited then st
        else dfsCycle (chainGraph (m0 :: mt))
          ((chainGraph (m0 :: mt)).length + (allDeps (chainGraph (m0 :: mt))).length + 1)
          p.1 [] st) ⟨[], [], []⟩).cycles = [m0 :: mt]
    have hfold : (chainGraph (m0 :: mt)).foldl (fun st p =>
        if p.1 ∈ st.visited then st
        else dfsCycle (chainGraph (m0 :: mt))
          ((chainGraph (m0 :: mt)).length + (allDeps (chainGraph (m0 :: mt))).length + 1)
          p.1 [] st) ⟨[], [], []⟩
        = (e :: es).foldl (fun st p =>
        if p.1 ∈ st.visited then st
        else dfsCycle (chainGraph (m0 :: mt))
          ((chainGraph (m0 :: mt)).length + (allDeps (chainGraph (m0 :: mt))).length + 1)
          p.1 [] st) ⟨[], [], []⟩ := by
      rw [hcg]
    rw [hfold]
    simp only [List.foldl_cons]
    rw [if_neg (show e.1 ∉ (⟨[], [], []⟩ : CycState).visited by simp)]
    rw [he1, hchain']
    have hskip := fold_skip_visited (chainGraph (m0 :: mt))
      ((chainGraph (m0 :: mt)).length + (allDeps (chainGraph (m0 :: mt))).length + 1)
      es ⟨(m0 :: mt).reverse, [], [m0 :: mt]⟩ (by
        intro p hp
        show p.1 ∈ (m0 :: mt).reverse
        rw [List.mem_reverse]
        exact List.mem_cons_of_mem _ (hkes ▸ List.mem_map.2 ⟨p, hp, rfl⟩))
    rw [hskip]

/-- Witness for C10 on the three-node loop `I -> A -> B -> I`: exactly one
cycle is reported and its members are exactly the loop's nodes. -/
theorem claim_C10_find_cycles_witness :
    chainGraph ["I", "A", "B"] = [("I", ["A"]), ("A", ["B"]), ("B", ["I"])] ∧
    find_cycles (chainGraph ["I", "A", "B"]) = [["I", "A", "B"]] :=
  ⟨rfl, claim_C10_find_cycles ["I", "A", "B"] (by decide) (by decide)⟩
